import Mathlib

/-!
Shallow embedding of the dungeon-generation program (`index.ts`) and proofs
about it.  The program is a TypeScript CLI that procedurally generates
state-gated puzzle dungeons: `StateVar` records track puzzle state, `State`
is a duplicate-free collection of them, `Enclave` is a dungeon region tied
to one mechanism variable, `Graph` holds enclaves and labelled doorways,
`getAccessibleEnclaves` is the explicit-state reachability search and
`buildDungeon` is the randomized incremental builder.

Modelling conventions:
* variable ids are strings in the source, compared only for equality; `main`
  assigns the single-character ids `String.fromCharCode(65 + i)`, so ids are
  embedded as the natural numbers (the character codes);
* `Math.random()` draws are embedded as an oracle `Nat → Nat` together with
  a running counter; `Math.floor(Math.random() * n)` becomes `rand o ctr n`,
  which is `o ctr % n` (and `0` when `n = 0`, matching `floor(x * 0) = 0`);
* the `while` loop of the reachability search is embedded with an explicit
  fuel parameter; `suffFuel` computes a fuel that is provably sufficient
  (the termination theorem), and the top-level `getAccessibleEnclaves`
  runs the loop with that fuel.
-/

namespace Dungeon

/-- Embedding of the source type `StateVar`: the basic unit tracking dungeon
state.  `states` is the cardinality, `value` the current value, ids are the
character codes assigned by `main`. -/
structure StateVar where
  id : Nat
  states : Nat
  value : Nat
  reversible : Bool
deriving DecidableEq, Repr

instance : Inhabited StateVar := ⟨⟨0, 0, 0, false⟩⟩

/-- One step of the duplicate-resolution loop in the `State` constructor:
if a variable with the same id was already kept, only its `value` field is
overwritten in place (keeping the first-seen position and the first-seen
`states`/`reversible` fields); otherwise the variable is appended. -/
def insertVar (acc : List StateVar) (x : StateVar) : List StateVar :=
  if acc.any (fun y => y.id == x.id) then
    acc.map (fun y => if y.id == x.id then { y with value := x.value } else y)
  else
    acc ++ [x]

/-- Embedding of the duplicate-resolution loop of the `State` constructor:
entries are processed left to right; a repeated id keeps the first-seen
position but takes the last-seen value. -/
def dedupVars (vars : List StateVar) : List StateVar :=
  vars.foldl insertVar []

/-- Embedding of the source class `State`: a collection of `StateVar`s with
unique ids.  The raw structure holds the field; values of this type are
always built with `mkState`, mirroring the constructor. -/
structure State where
  vars : List StateVar
deriving DecidableEq, Repr

instance : Inhabited State := ⟨⟨[]⟩⟩

/-- Embedding of the `State` constructor `new State(...vars)`. -/
def mkState (vars : List StateVar) : State := ⟨dedupVars vars⟩

/-- `vars.find(y => y.id === i)?.value` — the value stored for id `i`. -/
def lookupValue (vars : List StateVar) (i : Nat) : Option Nat :=
  (vars.find? (fun y => y.id == i)).map (fun y => y.value)

/-- Embedding of `State.relevant`: the subset of variables that are
reversible or hold a nonzero value. -/
def State.relevant (s : State) : State :=
  mkState (s.vars.filter (fun x => x.reversible || decide (x.value > 0)))

/-- Embedding of `State.satisfies`: every variable of the target `t` exists
in `s` with an equal value. -/
def State.satisfies (s t : State) : Bool :=
  t.vars.all (fun x => lookupValue s.vars x.id == some x.value)

/-- Embedding of `State.equals`: equal lengths, and every variable of `s`
has a variable of `t` with the same id and value. -/
def State.equals (s t : State) : Bool :=
  s.vars.length == t.vars.length &&
    s.vars.all (fun x => t.vars.any (fun y => y.id == x.id && y.value == x.value))

/-- The ids of a variable list, in order. -/
def idsOf (vars : List StateVar) : List Nat := vars.map (fun v => v.id)

/-- Keep-first deduplication of a list of ids; used to state the
"first-seen position" guarantee of the `State` constructor. -/
def keepFirst (l : List Nat) : List Nat :=
  l.foldl (fun acc i => if i ∈ acc then acc else acc ++ [i]) []

/-- The value of the **last** entry of `vars` carrying id `i`; used to state
the "last-seen value" guarantee of the `State` constructor. -/
def lastLookup : List StateVar → Nat → Option Nat
  | [], _ => none
  | x :: rest, i =>
    match lastLookup rest i with
    | some v => some v
    | none => if x.id == i then some x.value else none

/-- Merging two states: concatenate the var sequences, then run the
constructor (this is exactly what `new State(...a.vars, ...b.vars)` does). -/
def mergeStates (s t : State) : State := mkState (s.vars ++ t.vars)


/-- Embedding of the source class `Enclave`: a dungeon region tied to one
mechanism `StateVar`. -/
structure Enclave where
  mechanism : StateVar
deriving DecidableEq, Repr

instance : Inhabited Enclave := ⟨⟨default⟩⟩

/-- Embedding of `Enclave.mutable`: the enclave can still change the dungeon
state (always for a reversible mechanism; only at the baseline value `0` for
an irreversible one). -/
def Enclave.mutable (e : Enclave) : Bool :=
  e.mechanism.reversible || e.mechanism.value == 0

/-- Embedding of `Enclave.equals`: identity is the mechanism id. -/
def Enclave.equals (e f : Enclave) : Bool :=
  e.mechanism.id == f.mechanism.id

/-- Embedding of `Math.floor(Math.random() * n)`: the oracle draw at index
`ctr`, reduced below `n` (`0` when `n = 0`, matching `floor(x * 0) = 0`). -/
def rand (o : Nat → Nat) (ctr n : Nat) : Nat :=
  if n = 0 then 0 else o ctr % n

/-- Embedding of `Enclave.activated`: a fresh copy of the mechanism after one
activation.  The source draws `Math.random()` once for the irreversible case
(value in `[1, states)`) and, when reversible, draws again and skips over the
current value taken from `currentState` (the result never repeats it).
Returns the new `StateVar` and the advanced oracle counter. -/
def Enclave.activated (e : Enclave) (currentState : State) (o : Nat → Nat) (ctr : Nat) :
    StateVar × Nat :=
  let value := rand o ctr (e.mechanism.states - 1) + 1
  if e.mechanism.reversible then
    let current := (lookupValue currentState.vars e.mechanism.id).getD 0
    let v2 := rand o (ctr + 1) (e.mechanism.states - 1)
    let v3 := if v2 ≥ current then v2 + 1 else v2
    ({ e.mechanism with value := v3 }, ctr + 2)
  else
    ({ e.mechanism with value := value }, ctr + 1)

/-- Embedding of `getAlternates`: all alternate values for a `StateVar`.
For a reversible variable, one per value in `[0, states)`; for an
irreversible one, the unchanged variable plus (only at value `0`) the
advance to `1`. -/
def getAlternates (sv : StateVar) : List StateVar :=
  if sv.reversible then
    (List.range sv.states).map (fun a => { sv with value := a })
  else if sv.value = 0 then
    [sv, { sv with value := 1 }]
  else
    [sv]

/-- Embedding of the source type `EnclaveAndState`. -/
structure EnclaveAndState where
  enclave : Enclave
  state : State
deriving DecidableEq, Repr

instance : Inhabited EnclaveAndState := ⟨⟨default, default⟩⟩

/-- The visited-set membership test of `getAccessibleEnclaves`:
`transformed.enclave.equals(x.enclave) && transformed.state.equals(x.state)`. -/
def eqEAS (a b : EnclaveAndState) : Bool :=
  Enclave.equals a.enclave b.enclave && State.equals a.state b.state

/-- A doorway record of the source `Graph`: `{src, dst, label}`. -/
structure Edge where
  src : Enclave
  dst : Enclave
  label : State
deriving DecidableEq, Repr

/-- Embedding of the source class `Graph`. -/
structure Graph where
  edges : List Edge
  nodes : List Enclave
deriving DecidableEq, Repr

/-- Embedding of `Graph.addEdge`: pushes the directed record and its mirror. -/
def Graph.addEdge (g : Graph) (src dst : Enclave) (label : State) : Graph :=
  { g with edges := g.edges ++ [⟨src, dst, label⟩, ⟨dst, src, label⟩] }

/-- The visited check and push of `getAccessibleEnclaves`: a transformed
pair is appended to worklist (first component) and visited list (second)
unless an `eqEAS`-equal pair was already visited. -/
def pushTransformed (acc : List EnclaveAndState × List EnclaveAndState)
    (transformed : EnclaveAndState) : List EnclaveAndState × List EnclaveAndState :=
  if acc.2.any (fun x => eqEAS transformed x) then acc
  else (acc.1 ++ [transformed], acc.2 ++ [transformed])

/-- The body of the `while` loop of `getAccessibleEnclaves` for one popped
`root`: enumerate the alternates of the root's mechanism, find the doorways
each alternate satisfies, and push every not-yet-visited transformed pair
onto both the worklist and the visited list. -/
def expandOne (g : Graph) (root : EnclaveAndState)
    (acc : List EnclaveAndState × List EnclaveAndState) :
    List EnclaveAndState × List EnclaveAndState :=
  let alternates := (getAlternates root.enclave.mechanism).map
    (fun x => ({ enclave := root.enclave,
                 state := mkState (root.state.vars ++ [x]) } : EnclaveAndState))
  alternates.foldl (fun acc current =>
    let neighbors := g.edges.filter
      (fun x => Enclave.equals x.src current.enclave && State.satisfies current.state x.label)
    neighbors.foldl (fun acc n =>
      pushTransformed acc
        { state := mkState (current.state.vars ++ n.label.vars), enclave := n.dst }) acc) acc

/-- The `while (adjacent.length > 0)` loop of `getAccessibleEnclaves`, with
an explicit fuel; `adjacent.pop()` takes the last element.  When the fuel
runs out the current visited list is returned (the termination theorem shows
`suffFuel` never lets that happen). -/
def searchLoop (g : Graph) :
    Nat → List EnclaveAndState → List EnclaveAndState → List EnclaveAndState
  | 0, _, visited => visited
  | fuel + 1, adjacent, visited =>
    match adjacent.getLast? with
    | none => visited
    | some root =>
      let p := expandOne g root (adjacent.dropLast, visited)
      searchLoop g fuel p.1 p.2

/-- Whether the loop of `getAccessibleEnclaves` empties its worklist within
`fuel` iterations — the statement of termination of the search. -/
def loopEndsIn (g : Graph) :
    Nat → List EnclaveAndState → List EnclaveAndState → Bool
  | 0, adjacent, _ => adjacent.isEmpty
  | fuel + 1, adjacent, visited =>
    match adjacent.getLast? with
    | none => true
    | some root =>
      let p := expandOne g root (adjacent.dropLast, visited)
      loopEndsIn g fuel p.1 p.2

/-- Mechanism records the search can ever occupy: the start enclave plus
every doorway destination. -/
def mechPool (g : Graph) (start : EnclaveAndState) : List StateVar :=
  start.enclave.mechanism :: g.edges.map (fun e => e.dst.mechanism)

/-- Variable records feeding the states of the search: the start state's
variables plus every doorway label's variables. -/
def basePool (g : Graph) (start : EnclaveAndState) : List StateVar :=
  start.state.vars ++ g.edges.flatMap (fun e => e.label.vars)

/-- Every id a state reached by the search can mention. -/
def poolIds (g : Graph) (start : EnclaveAndState) : List Nat :=
  idsOf (basePool g start) ++ idsOf (mechPool g start)

/-- Every value a state reached by the search can hold. -/
def poolVals (g : Graph) (start : EnclaveAndState) : List Nat :=
  (basePool g start).map (fun v => v.value) ++
    (mechPool g start).flatMap (fun m => List.range m.states ++ [m.value, 1])

/-- Bound on the number of pairwise non-equal (enclave, state) pairs the
search can visit: enclave pool size times the number of functions from the
id pool to optional values — the finite product space of the spec. -/
def searchBound (g : Graph) (start : EnclaveAndState) : Nat :=
  (mechPool g start).length * (1 + (poolVals g start).length) ^ (poolIds g start).length

/-- Fuel sufficient for the search loop to drain its worklist. -/
def suffFuel (g : Graph) (start : EnclaveAndState) : Nat :=
  searchBound g start + 2

/-- Embedding of `Graph.getAccessibleEnclaves`: run the worklist loop with
provably sufficient fuel, starting from worklist and visited both `[start]`. -/
def Graph.getAccessibleEnclaves (g : Graph) (start : EnclaveAndState) :
    List EnclaveAndState :=
  searchLoop g (suffFuel g start) [start] [start]

/-- Embedding of `Graph.getStatesFromPath`: the states possible at `dst`
after travelling from `src` with initial state `initialState`. -/
def Graph.getStatesFromPath (g : Graph) (initialState : State) (src dst : Enclave) :
    List State :=
  ((g.getAccessibleEnclaves { state := initialState, enclave := src }).filter
    (fun x => Enclave.equals x.enclave dst)).map (fun x => x.state)

/-- Embedding of `Graph.getUnusedStateVars`: mechanisms that appear in no
doorway label. -/
def Graph.getUnusedStateVars (g : Graph) : List StateVar :=
  (g.nodes.map (fun x => x.mechanism)).filter
    (fun x => ! g.edges.any (fun y => y.label.vars.any (fun z => x.id == z.id)))

/-- Embedding of `choice`: `a[Math.floor(Math.random() * a.length)]`; the
caller passes the drawn index. -/
def choice {α : Type} [Inhabited α] (l : List α) (idx : Nat) : α :=
  l.getD idx default

/-- Ghost record of one `addEdge` call made by the builder between two
already-committed enclaves: the graph as it stood just before the call, the
builder's current state at that moment and the edge's endpoints. -/
structure BuildEvent where
  graphBefore : Graph
  qstate : State
  src : Enclave
  dst : Enclave
deriving DecidableEq, Repr

/-- The running state of `buildDungeon`: the growing graph, the builder's
`currentState` and `currentEnclave`, the oracle counter, and the ghost list
of edge-commit events (the latter records the `addEdge` calls for the
edge-necessity proofs and does not influence the computation). -/
structure BuildState where
  graph : Graph
  currentState : State
  currentEnclave : Enclave
  ctr : Nat
  events : List BuildEvent
deriving Repr

/-- One iteration of the inner `for (b...)` loop of `buildDungeon`: pick and
remove a random mutable enclave `diff`, adopt a random reachable state or
commit a doorway labelled `currentState.relevant()`, then activate `diff`'s
mechanism, append the fresh assignment to `conditions` and merge it into the
current state. -/
def innerStep (o : Nat → Nat) (bs : BuildState) (ml : List Enclave)
    (conditions : List StateVar) : BuildState × List Enclave × List StateVar :=
  let idx := rand o bs.ctr ml.length
  let diff := choice ml idx
  let ml2 := ml.eraseIdx idx
  let states := bs.graph.getStatesFromPath bs.currentState bs.currentEnclave diff
  let t :=
    if states.length > 0 then
      (bs.graph, choice states (rand o (bs.ctr + 1) states.length), bs.ctr + 2, bs.events)
    else
      (bs.graph.addEdge bs.currentEnclave diff bs.currentState.relevant, bs.currentState,
       bs.ctr + 1,
       bs.events ++ [{ graphBefore := bs.graph, qstate := bs.currentState,
                       src := bs.currentEnclave, dst := diff }])
  let act := Enclave.activated diff t.2.1 o t.2.2.1
  ({ graph := t.1,
     currentState := mkState (t.2.1.vars ++ [act.1]),
     currentEnclave := diff,
     ctr := act.2,
     events := t.2.2.2 },
   ml2, conditions ++ [act.1])

/-- The inner loop of `buildDungeon`, iterated `numChanges` times. -/
def innerLoop (o : Nat → Nat) :
    Nat → BuildState → List Enclave → List StateVar → BuildState × List StateVar
  | 0, bs, _, conditions => (bs, conditions)
  | b + 1, bs, ml, conditions =>
    let r := innerStep o bs ml conditions
    innerLoop o b r.1 r.2.1 r.2.2

/-- The `mutables` pool of one builder step. -/
def stepMutables (bs : BuildState) : List Enclave :=
  bs.graph.nodes.filter (fun x => x.mutable)

/-- The builder state and the gathered `conditions` after the inner loop of
one builder step (`numChanges` draws at `ctr + 1`; the anchor draw sits at
`ctr`). -/
def stepInner (o : Nat → Nat) (bs : BuildState) : BuildState × List StateVar :=
  innerLoop o (rand o (bs.ctr + 1) ((stepMutables bs).length - 1) + 1)
    { bs with ctr := bs.ctr + 2 } (stepMutables bs) []

/-- The randomly chosen `anchor` of one builder step. -/
def stepAnchor (o : Nat → Nat) (bs : BuildState) : Enclave :=
  choice bs.graph.nodes (rand o bs.ctr bs.graph.nodes.length)

/-- One `place next enclave` step of `buildDungeon` for the variable `v`:
choose a random anchor, force a random number of mutable intermediate
enclaves, connect to the anchor if needed, then commit the new enclave
behind a doorway labelled with the gathered `conditions`. -/
def buildStep (o : Nat → Nat) (bs : BuildState) (v : StateVar) : BuildState :=
  let anchor := stepAnchor o bs
  let bs2 := (stepInner o bs).1
  let conditions := (stepInner o bs).2
  let enclave : Enclave := ⟨v⟩
  let t :=
    if (bs2.graph.getStatesFromPath bs2.currentState bs2.currentEnclave anchor).length = 0 then
      (bs2.graph.addEdge bs2.currentEnclave anchor bs2.currentState.relevant,
       bs2.events ++ [{ graphBefore := bs2.graph, qstate := bs2.currentState,
                        src := bs2.currentEnclave, dst := anchor }])
    else (bs2.graph, bs2.events)
  let g4 : Graph := { edges := t.1.edges, nodes := t.1.nodes ++ [enclave] }
  let g5 := g4.addEdge anchor enclave (mkState conditions)
  { graph := g5,
    currentState := mkState (bs2.currentState.vars ++ conditions),
    currentEnclave := enclave,
    ctr := bs2.ctr,
    events := t.2 ++ [{ graphBefore := g4, qstate := bs2.currentState,
                        src := anchor, dst := enclave }] }

/-- The `for (a = 1; ...)` loop of `buildDungeon` over the remaining
variables. -/
def buildFrom (o : Nat → Nat) : BuildState → List StateVar → BuildState
  | bs, [] => bs
  | bs, v :: rest => buildFrom o (buildStep o bs v) rest

/-- The builder's state just before the main loop: one enclave for the first
variable, current state = the initial state. -/
def initBuild (initialState : State) : BuildState :=
  { graph := { edges := [], nodes := [⟨initialState.vars.headD default⟩] },
    currentState := initialState,
    currentEnclave := ⟨initialState.vars.headD default⟩,
    ctr := 0,
    events := [] }

/-- Embedding of `buildDungeon`, with the random draws supplied by the
oracle `o`. -/
def buildDungeon (initialState : State) (o : Nat → Nat) : Graph :=
  (buildFrom o (initBuild initialState) initialState.vars.tail).graph

/-- Embedding of the input-validation regex of `main`:
`^(b|(r[0-9]+))(:(b|(r[0-9]+)))*$` matched against one colon-separated
token.  Note the regex accepts only `b` and `r<digits>` tokens. -/
def matchesDescriptor (s : List Char) : Bool :=
  s == ['b'] ||
    (match s with
     | 'r' :: rest => !rest.isEmpty && rest.all Char.isDigit
     | _ => false)

/-- Validation of the whole argument (already split on `:`, which always
yields at least one token): the regex accepts the argument iff every token
matches.  `main` performs no other check on the descriptor list — in
particular it never counts the tokens. -/
def validInput (tokens : List (List Char)) : Bool :=
  !tokens.isEmpty && tokens.all matchesDescriptor

/-- Embedding of `parseInt` on a digit string. -/
def digitsToNat (l : List Char) : Nat :=
  l.foldl (fun acc c => acc * 10 + (c.toNat - 48)) 0

/-- Embedding of the descriptor-to-`StateVar` mapping of `main`: reversible
iff the token starts with `r`, id = `65 + i`, cardinality 2 for `b` and the
parsed number otherwise, value 0. -/
def parseVar (i : Nat) (x : List Char) : StateVar :=
  { reversible := x.headD ' ' == 'r',
    id := 65 + i,
    states := if x.headD ' ' == 'b' then 2 else digitsToNat (x.drop 1),
    value := 0 }

/-- Embedding of the `State` built by `main` from the descriptor tokens. -/
def parseInput (tokens : List (List Char)) : State :=
  mkState (tokens.mapIdx (fun i x => parseVar i x))

/-- Modelled from the spec: a player configuration during legal play — the
current enclave id, the values of all variables (positionally, against a
fixed variable list) and the set of enclave ids visited so far. -/
structure PlayConfig where
  loc : Nat
  vals : List Nat
  seen : List Nat
deriving DecidableEq, Repr

/-- Sorted insertion keeping the `seen` set canonical. -/
def insSorted (n : Nat) : List Nat → List Nat
  | [] => [n]
  | x :: xs => if n < x then n :: x :: xs else if n = x then x :: xs else x :: insSorted n xs

/-- The value the player currently holds for variable id `i`. -/
def valAt (vs : List StateVar) (vals : List Nat) (i : Nat) : Option Nat :=
  match vs.findIdx? (fun v => v.id == i) with
  | some k => vals.get? k
  | none => none

/-- Whether the player's values satisfy a doorway label: every label
variable must be held with an equal value. -/
def satLabel (vs : List StateVar) (vals : List Nat) (label : State) : Bool :=
  label.vars.all (fun x => valAt vs vals x.id == some x.value)

/-- Modelled from the spec: the values the player can legally give the
mechanism of the enclave they occupy — a reversible variable can be set to
any value in its range (or left alone), an irreversible variable can only
advance, never regress. -/
def playAlternates (vs : List StateVar) (vals : List Nat) (loc : Nat) : List (List Nat) :=
  match vs.findIdx? (fun v => v.id == loc) with
  | some k =>
    match vs.get? k, vals.get? k with
    | some v, some cur =>
      let newVals := if v.reversible then List.range v.states
        else (List.range v.states).filter (fun w => cur ≤ w)
      newVals.map (fun w => vals.set k w)
    | _, _ => [vals]
  | none => [vals]

/-- Modelled from the spec: one legal move — activate the current enclave's
mechanism (or not), then cross any doorway from it whose label the new
values satisfy. -/
def playNext (g : Graph) (vs : List StateVar) (c : PlayConfig) : List PlayConfig :=
  (playAlternates vs c.vals c.loc).flatMap (fun vals2 =>
    (g.edges.filter (fun e => e.src.mechanism.id == c.loc && satLabel vs vals2 e.label)).map
      (fun e => { loc := e.dst.mechanism.id, vals := vals2,
                  seen := insSorted e.dst.mechanism.id c.seen }))

/-- Breadth-first closure of the legal-play configurations. -/
def playClosure (g : Graph) (vs : List StateVar) :
    Nat → List PlayConfig → List PlayConfig → List PlayConfig
  | 0, _, visited => visited
  | fuel + 1, frontier, visited =>
    match frontier with
    | [] => visited
    | c :: rest =>
      let p := (playNext g vs c).foldl (fun (pr : List PlayConfig × List PlayConfig) d =>
          if pr.2.contains d then pr else (pr.1 ++ [d], pr.2 ++ [d])) (rest, visited)
      playClosure g vs fuel p.1 p.2

/-- Whether the play closure exhausts its frontier within `fuel` steps (so
that its visited list is the complete set of legally reachable
configurations). -/
def playDone (g : Graph) (vs : List StateVar) :
    Nat → List PlayConfig → List PlayConfig → Bool
  | 0, frontier, _ => frontier.isEmpty
  | fuel + 1, frontier, visited =>
    match frontier with
    | [] => true
    | c :: rest =>
      let p := (playNext g vs c).foldl (fun (pr : List PlayConfig × List PlayConfig) d =>
          if pr.2.contains d then pr else (pr.1 ++ [d], pr.2 ++ [d])) (rest, visited)
      playDone g vs fuel p.1 p.2

/-- Modelled from the spec: the graph is solvable when a legal move
sequence from the first enclave in the initial all-zero state visits every
committed enclave. -/
def specSolvable (g : Graph) (vs : List StateVar) (fuel : Nat) : Bool :=
  let startId := (vs.headD default).id
  let start : PlayConfig := { loc := startId, vals := vs.map (fun _ => 0), seen := [startId] }
  let res := playClosure g vs fuel [start] [start]
  let allIds := g.nodes.map (fun e => e.mechanism.id)
  res.any (fun c => allIds.all (fun i => c.seen.contains i))

/-- The failing input of the solvability claim: descriptors `r2:b:b` — one
reversible 2-valued variable A, two irreversible binary variables B and C,
exactly as `main` would parse them. -/
def cexVars : List StateVar :=
  [⟨65, 2, 0, true⟩, ⟨66, 2, 0, false⟩, ⟨67, 2, 0, false⟩]

/-- The failing random draw sequence: `Math.floor(Math.random() * n)`
results, in the order the builder consumes them. -/
def cexOracle : Nat → Nat := fun i => [0, 0, 0, 0, 0, 0, 1, 0, 0, 0, 0, 0].getD i 0

/-- All lists of length `n` over the alphabet `A`; the finite universe used
to bound the search's visited set. -/
def tuples {α : Type} (A : List α) : Nat → List (List α)
  | 0 => [[]]
  | n + 1 => A.flatMap (fun a => (tuples A n).map (fun t => a :: t))

/-- The optional-value alphabet of search-state fingerprints. -/
def optVals (g : Graph) (start : EnclaveAndState) : List (Option Nat) :=
  none :: (poolVals g start).map some

/-- The finite universe of fingerprints of (enclave, state) pairs the search
can visit. -/
def fpUniv (g : Graph) (start : EnclaveAndState) : List (Nat × List (Option Nat)) :=
  (idsOf (mechPool g start)).flatMap
    (fun i => (tuples (optVals g start) (poolIds g start).length).map (fun t => (i, t)))

/-- The fingerprint of an (enclave, state) pair: the enclave id together
with the state's value at every pool id.  Pairs that are `eqEAS`-distinct
have distinct fingerprints. -/
def fp (g : Graph) (start : EnclaveAndState) (p : EnclaveAndState) :
    Nat × List (Option Nat) :=
  (p.enclave.mechanism.id, (poolIds g start).map (fun i => lookupValue p.state.vars i))

/-- A variable drawn from the id and value pools. -/
def goodVarP (ids vals : List Nat) (v : StateVar) : Prop :=
  v.id ∈ ids ∧ v.value ∈ vals

/-- A state whose variables are duplicate-free and drawn from the pools. -/
def goodState (ids vals : List Nat) (s : State) : Prop :=
  (idsOf s.vars).Nodup ∧ ∀ v ∈ s.vars, goodVarP ids vals v

/-- An (enclave, state) pair inside the finite product space of the search. -/
def goodEAS (g : Graph) (start : EnclaveAndState) (p : EnclaveAndState) : Prop :=
  p.enclave.mechanism ∈ mechPool g start ∧
    goodState (poolIds g start) (poolVals g start) p.state

/-- The loop invariant of the reachability search: worklist and visited
list live in the product space and the visited list is pairwise distinct
under the search's own equality test. -/
def searchInv (g : Graph) (start : EnclaveAndState)
    (adjacent visited : List EnclaveAndState) : Prop :=
  (∀ p ∈ adjacent, goodEAS g start p) ∧ (∀ p ∈ visited, goodEAS g start p) ∧
    visited.Pairwise (fun a b => eqEAS b a = false)

/-- A sequence of `addEdge` operations applied to a fresh graph carrying the
given nodes. -/
def applyEdgeOps (nodes : List Enclave) (ops : List (Enclave × Enclave × State)) : Graph :=
  ops.foldl (fun g op => g.addEdge op.1 op.2.1 op.2.2) { edges := [], nodes := nodes }

/-- The mechanism ids of a graph's committed enclaves. -/
def nodeIds (g : Graph) : List Nat := g.nodes.map (fun n => n.mechanism.id)

/-- An edge list is symmetric: it contains `(a, b, l)` iff it contains
`(b, a, l)`. -/
def SymEdges (es : List Edge) : Prop :=
  ∀ (a b : Enclave) (l : State), (⟨a, b, l⟩ : Edge) ∈ es ↔ (⟨b, a, l⟩ : Edge) ∈ es

/-- A recorded edge commit happened at a moment where the reachability
engine finds no path between the endpoints under the committed graph and
current state. -/
def EventOK (ev : BuildEvent) : Prop :=
  Graph.getStatesFromPath ev.graphBefore ev.qstate ev.src ev.dst = []

section MergeLemmas

theorem idsOf_append (u v : List StateVar) : idsOf (u ++ v) = idsOf u ++ idsOf v := by
  simp [idsOf]

theorem idsOf_cons (a : StateVar) (rest : List StateVar) :
    idsOf (a :: rest) = a.id :: idsOf rest := rfl

theorem lookupValue_nil (i : Nat) : lookupValue [] i = none := rfl

theorem lookupValue_cons (a : StateVar) (rest : List StateVar) (i : Nat) :
    lookupValue (a :: rest) i =
      if a.id = i then some a.value else lookupValue rest i := by
  unfold lookupValue
  by_cases h : a.id = i
  · rw [List.find?_cons_of_pos _ (by simp [h]), if_pos h]
    rfl
  · rw [List.find?_cons_of_neg _ (by simp [h]), if_neg h]

theorem lookupValue_append (u v : List StateVar) (i : Nat) :
    lookupValue (u ++ v) i =
      match lookupValue u i with
      | some w => some w
      | none => lookupValue v i := by
  induction u with
  | nil => simp [lookupValue]
  | cons a rest ih =>
    rw [List.cons_append, lookupValue_cons, lookupValue_cons]
    by_cases h : a.id = i
    · simp [h]
    · simp [h, ih]

theorem mem_idsOf (vars : List StateVar) (i : Nat) :
    i ∈ idsOf vars ↔ ∃ y ∈ vars, y.id = i := by
  simp [idsOf]

theorem idsOf_insertVar (acc : List StateVar) (x : StateVar) :
    idsOf (insertVar acc x) =
      if x.id ∈ idsOf acc then idsOf acc else idsOf acc ++ [x.id] := by
  unfold insertVar
  by_cases h : x.id ∈ idsOf acc
  · have hany : acc.any (fun y => y.id == x.id) = true := by
      rcases (mem_idsOf acc x.id).mp h with ⟨y, hy, hid⟩
      exact List.any_eq_true.mpr ⟨y, hy, by simp [hid]⟩
    rw [if_pos hany, if_pos h]
    unfold idsOf
    rw [List.map_map]
    apply List.map_congr_left
    intro y _
    by_cases hy : y.id = x.id <;> simp [hy]
  · have hany : ¬ (acc.any (fun y => y.id == x.id) = true) := by
      rw [List.any_eq_true]
      rintro ⟨y, hy, hyy⟩
      exact h ((mem_idsOf acc x.id).mpr ⟨y, hy, beq_iff_eq.mp hyy⟩)
    rw [if_neg hany, if_neg h, idsOf_append]
    rfl

theorem idsOf_foldl_insertVar (xs : List StateVar) (acc : List StateVar) :
    idsOf (xs.foldl insertVar acc) =
      (idsOf xs).foldl (fun l i => if i ∈ l then l else l ++ [i]) (idsOf acc) := by
  induction xs generalizing acc with
  | nil => rfl
  | cons x rest ih =>
    rw [idsOf_cons, List.foldl_cons, List.foldl_cons, ← idsOf_insertVar acc x, ih]

/-- The ids of a constructed state are the keep-first deduplication of the
input ids: duplicate ids keep the first-seen position. -/
theorem idsOf_dedupVars (xs : List StateVar) :
    idsOf (dedupVars xs) = keepFirst (idsOf xs) := by
  unfold dedupVars keepFirst
  rw [idsOf_foldl_insertVar]
  rfl

theorem lookupValue_map_upd_self (acc : List StateVar) (x : StateVar)
    (h : ∃ y ∈ acc, y.id = x.id) :
    lookupValue (acc.map (fun y => if y.id == x.id then { y with value := x.value } else y)) x.id
      = some x.value := by
  induction acc with
  | nil => rcases h with ⟨y, hy, _⟩; cases hy
  | cons a rest ih =>
    rw [List.map_cons]
    by_cases ha : a.id = x.id
    · have heq : (if a.id == x.id then { a with value := x.value } else a)
          = { a with value := x.value } := by simp [ha]
      rw [heq, lookupValue_cons]
      simp [ha]
    · have heq : (if a.id == x.id then { a with value := x.value } else a) = a := by simp [ha]
      rw [heq, lookupValue_cons, if_neg ha]
      apply ih
      rcases h with ⟨y, hy, hyy⟩
      rcases List.mem_cons.mp hy with h1 | h2
      · exact absurd (h1 ▸ hyy) ha
      · exact ⟨y, h2, hyy⟩

theorem lookupValue_map_upd_other (acc : List StateVar) (x : StateVar) (i : Nat)
    (h : x.id ≠ i) :
    lookupValue (acc.map (fun y => if y.id == x.id then { y with value := x.value } else y)) i
      = lookupValue acc i := by
  induction acc with
  | nil => rfl
  | cons a rest ih =>
    rw [List.map_cons]
    by_cases ha : a.id = x.id
    · have heq : (if a.id == x.id then { a with value := x.value } else a)
          = { a with value := x.value } := by simp [ha]
      have hai : a.id ≠ i := by rw [ha]; exact h
      rw [heq, lookupValue_cons, lookupValue_cons]
      simp only [show ({ a with value := x.value } : StateVar).id = a.id from rfl]
      rw [if_neg hai, if_neg hai, ih]
    · have heq : (if a.id == x.id then { a with value := x.value } else a) = a := by simp [ha]
      rw [heq, lookupValue_cons, lookupValue_cons]
      by_cases hai : a.id = i
      · rw [if_pos hai, if_pos hai]
      · rw [if_neg hai, if_neg hai, ih]

theorem lookupValue_eq_none (acc : List StateVar) (i : Nat)
    (h : ∀ y ∈ acc, y.id ≠ i) : lookupValue acc i = none := by
  induction acc with
  | nil => rfl
  | cons a rest ih =>
    rw [lookupValue_cons, if_neg (h a (by simp))]
    exact ih (fun y hy => h y (by simp [hy]))

theorem lookupValue_insertVar (acc : List StateVar) (x : StateVar) (i : Nat) :
    lookupValue (insertVar acc x) i =
      if x.id = i then some x.value else lookupValue acc i := by
  unfold insertVar
  by_cases hmem : acc.any (fun y => y.id == x.id) = true
  · rw [if_pos hmem]
    by_cases hi : x.id = i
    · subst hi
      rw [if_pos rfl]
      apply lookupValue_map_upd_self
      rcases List.any_eq_true.mp hmem with ⟨y, hy, hyy⟩
      exact ⟨y, hy, beq_iff_eq.mp hyy⟩
    · rw [if_neg hi]
      exact lookupValue_map_upd_other acc x i hi
  · rw [if_neg hmem, lookupValue_append]
    have hnone : ∀ y ∈ acc, y.id ≠ x.id := by
      intro y hy hc
      exact hmem (List.any_eq_true.mpr ⟨y, hy, beq_iff_eq.mpr hc⟩)
    by_cases hi : x.id = i
    · subst hi
      rw [lookupValue_eq_none acc x.id hnone]
      simp [lookupValue_cons]
    · cases h : lookupValue acc i with
      | none => simp [lookupValue_cons, lookupValue_nil, hi]
      | some w => simp [hi]

theorem lookupValue_foldl_insertVar (xs : List StateVar) (acc : List StateVar) (i : Nat) :
    lookupValue (xs.foldl insertVar acc) i =
      match lastLookup xs i with
      | some v => some v
      | none => lookupValue acc i := by
  induction xs generalizing acc with
  | nil => simp [lastLookup]
  | cons x rest ih =>
    simp only [List.foldl_cons, lastLookup]
    rw [ih (insertVar acc x), lookupValue_insertVar]
    cases h : lastLookup rest i with
    | some v => rfl
    | none =>
      by_cases hx : x.id = i <;> simp [hx]

/-- The value kept for an id by the constructor is the last-seen value. -/
theorem lookupValue_dedupVars (xs : List StateVar) (i : Nat) :
    lookupValue (dedupVars xs) i = lastLookup xs i := by
  unfold dedupVars
  rw [lookupValue_foldl_insertVar]
  cases lastLookup xs i <;> simp [lookupValue]

theorem lastLookup_append (u v : List StateVar) (i : Nat) :
    lastLookup (u ++ v) i =
      match lastLookup v i with
      | some w => some w
      | none => lastLookup u i := by
  induction u with
  | nil => cases h : lastLookup v i <;> simp [lastLookup, h]
  | cons a rest ih =>
    rw [List.cons_append]
    show (match lastLookup (rest ++ v) i with
      | some w => some w
      | none => if a.id == i then some a.value else none) = _
    rw [ih]
    cases hv : lastLookup v i <;> cases hr : lastLookup rest i <;>
      simp [lastLookup, hv, hr]

theorem nodup_idsOf_insertVar (acc : List StateVar) (x : StateVar)
    (h : (idsOf acc).Nodup) : (idsOf (insertVar acc x)).Nodup := by
  rw [idsOf_insertVar]
  by_cases hm : x.id ∈ idsOf acc
  · rw [if_pos hm]; exact h
  · rw [if_neg hm]
    exact List.Nodup.append h (List.nodup_singleton _)
      (by intro a ha hb; rw [List.mem_singleton] at hb; exact hm (hb ▸ ha))

theorem nodup_idsOf_foldl_insertVar (xs acc : List StateVar)
    (h : (idsOf acc).Nodup) : (idsOf (xs.foldl insertVar acc)).Nodup := by
  induction xs generalizing acc with
  | nil => exact h
  | cons x rest ih => exact ih _ (nodup_idsOf_insertVar acc x h)

theorem nodup_idsOf_dedupVars (xs : List StateVar) : (idsOf (dedupVars xs)).Nodup :=
  nodup_idsOf_foldl_insertVar xs [] List.nodup_nil

theorem lookupValue_isSome_iff (vars : List StateVar) (i : Nat) :
    (lookupValue vars i).isSome = true ↔ i ∈ idsOf vars := by
  induction vars with
  | nil => simp [lookupValue, idsOf]
  | cons a rest ih =>
    rw [lookupValue_cons, idsOf_cons]
    by_cases h : a.id = i
    · simp [h]
    · simp only [if_neg h, List.mem_cons, ih]
      constructor
      · exact fun hh => Or.inr hh
      · rintro (h1 | h2)
        · exact absurd h1.symm h
        · exact h2

theorem lookupValue_of_mem_nodup (vars : List StateVar) (x : StateVar)
    (hx : x ∈ vars) (h : (idsOf vars).Nodup) :
    lookupValue vars x.id = some x.value := by
  induction vars with
  | nil => cases hx
  | cons a rest ih =>
    rw [idsOf_cons] at h
    have hna := (List.nodup_cons.mp h).1
    have hnr := (List.nodup_cons.mp h).2
    rcases List.mem_cons.mp hx with h1 | h2
    · subst h1; rw [lookupValue_cons, if_pos rfl]
    · rw [lookupValue_cons]
      by_cases ha : a.id = x.id
      · exact absurd ((mem_idsOf rest a.id).mpr ⟨x, h2, ha.symm⟩) hna
      · rw [if_neg ha]; exact ih h2 hnr

theorem exists_of_lookupValue_some (vars : List StateVar) (i v : Nat)
    (h : lookupValue vars i = some v) :
    ∃ y ∈ vars, y.id = i ∧ y.value = v := by
  unfold lookupValue at h
  cases hf : vars.find? (fun y => y.id == i) with
  | none => rw [hf] at h; cases h
  | some y =>
    rw [hf] at h
    have hm := List.mem_of_find?_eq_some hf
    have hp := List.find?_some hf
    exact ⟨y, hm, beq_iff_eq.mp hp, by simpa using h⟩

theorem length_eq_of_nodup_iff (l₁ l₂ : List Nat) (h₁ : l₁.Nodup) (h₂ : l₂.Nodup)
    (h : ∀ a, a ∈ l₁ ↔ a ∈ l₂) : l₁.length = l₂.length :=
  Nat.le_antisymm
    (List.Subperm.length_le (List.subperm_of_subset h₁ (fun a ha => (h a).mp ha)))
    (List.Subperm.length_le (List.subperm_of_subset h₂ (fun a ha => (h a).mpr ha)))

theorem length_idsOf (vars : List StateVar) : (idsOf vars).length = vars.length :=
  List.length_map _ _

/-- Two id-duplicate-free variable lists with identical lookup functions are
equal as `State`s in the sense of `State.equals`. -/
theorem equals_of_lookup (s t : List StateVar)
    (hs : (idsOf s).Nodup) (ht : (idsOf t).Nodup)
    (h : ∀ i, lookupValue s i = lookupValue t i) :
    State.equals ⟨s⟩ ⟨t⟩ = true := by
  unfold State.equals
  rw [Bool.and_eq_true]
  constructor
  · apply beq_iff_eq.mpr
    rw [← length_idsOf s, ← length_idsOf t]
    apply length_eq_of_nodup_iff _ _ hs ht
    intro a
    rw [← lookupValue_isSome_iff, ← lookupValue_isSome_iff, h a]
  · rw [List.all_eq_true]
    intro x hx
    rw [List.any_eq_true]
    have hsx : lookupValue t x.id = some x.value := (h x.id) ▸ lookupValue_of_mem_nodup s x hx hs
    obtain ⟨y, hy, hid, hval⟩ := exists_of_lookupValue_some t x.id x.value hsx
    exact ⟨y, hy, by simp [hid, hval]⟩

theorem equals_refl (s : State) : State.equals s s = true := by
  unfold State.equals
  rw [Bool.and_eq_true]
  refine ⟨beq_iff_eq.mpr rfl, ?_⟩
  rw [List.all_eq_true]
  intro x hx
  exact List.any_eq_true.mpr ⟨x, hx, by simp⟩

theorem insertVar_of_fresh (acc : List StateVar) (x : StateVar)
    (h : x.id ∉ idsOf acc) : insertVar acc x = acc ++ [x] := by
  unfold insertVar
  rw [if_neg]
  rw [List.any_eq_true]
  rintro ⟨y, hy, hyy⟩
  exact h ((mem_idsOf acc x.id).mpr ⟨y, hy, beq_iff_eq.mp hyy⟩)

theorem foldl_insertVar_of_fresh (xs : List StateVar) (acc : List StateVar)
    (hacc : ∀ x ∈ xs, x.id ∉ idsOf acc) (hxs : (idsOf xs).Nodup) :
    xs.foldl insertVar acc = acc ++ xs := by
  induction xs generalizing acc with
  | nil => simp
  | cons x rest ih =>
    rw [List.foldl_cons, insertVar_of_fresh acc x (hacc x (by simp))]
    rw [idsOf_cons] at hxs
    have hx := (List.nodup_cons.mp hxs).1
    rw [ih (acc ++ [x]) ?_ (List.nodup_cons.mp hxs).2, List.append_assoc]
    rfl
    intro y hy
    rw [idsOf_append]
    rw [List.mem_append]
    rintro (h1 | h2)
    · exact hacc y (by simp [hy]) h1
    · rw [show idsOf [x] = [x.id] from rfl, List.mem_singleton] at h2
      exact hx (h2 ▸ (mem_idsOf rest y.id).mpr ⟨y, hy, rfl⟩)

theorem dedupVars_of_nodup (xs : List StateVar) (h : (idsOf xs).Nodup) :
    dedupVars xs = xs := by
  unfold dedupVars
  rw [foldl_insertVar_of_fresh xs [] (by intro x _ hc; cases hc) h]
  rfl

theorem dedupVars_idem (xs : List StateVar) : dedupVars (dedupVars xs) = dedupVars xs :=
  dedupVars_of_nodup _ (nodup_idsOf_dedupVars xs)

theorem dedupVars_append (u v : List StateVar) :
    dedupVars (u ++ v) = v.foldl insertVar (dedupVars u) := by
  unfold dedupVars
  rw [List.foldl_append]

theorem dedupVars_dedup_left (u v : List StateVar) :
    dedupVars (dedupVars u ++ v) = dedupVars (u ++ v) := by
  rw [dedupVars_append, dedupVars_append, dedupVars_idem]

theorem lastLookup_of_nodup (xs : List StateVar) (i : Nat) (h : (idsOf xs).Nodup) :
    lastLookup xs i = lookupValue xs i := by
  induction xs with
  | nil => rfl
  | cons a rest ih =>
    rw [idsOf_cons] at h
    have hna := (List.nodup_cons.mp h).1
    have hnr := (List.nodup_cons.mp h).2
    show (match lastLookup rest i with
      | some v => some v
      | none => if a.id == i then some a.value else none) = _
    rw [lookupValue_cons, ih hnr]
    by_cases hai : a.id = i
    · subst hai
      rw [lookupValue_eq_none rest a.id ?_]
      · simp
      · intro y hy hc
        exact hna ((mem_idsOf rest a.id).mpr ⟨y, hy, hc⟩)
    · cases lookupValue rest i <;> simp [hai]

theorem lookup_dedup_absorb_right (u v : List StateVar) (i : Nat) :
    lookupValue (dedupVars (u ++ dedupVars v)) i = lookupValue (dedupVars (u ++ v)) i := by
  rw [lookupValue_dedupVars, lookupValue_dedupVars, lastLookup_append, lastLookup_append,
    lastLookup_of_nodup _ _ (nodup_idsOf_dedupVars v), lookupValue_dedupVars]

theorem merge_assoc_equals (a b c : State) :
    State.equals (mergeStates (mergeStates a b) c) (mergeStates a (mergeStates b c)) = true := by
  show State.equals ⟨dedupVars (dedupVars (a.vars ++ b.vars) ++ c.vars)⟩
    ⟨dedupVars (a.vars ++ dedupVars (b.vars ++ c.vars))⟩ = true
  rw [dedupVars_dedup_left, List.append_assoc]
  apply equals_of_lookup _ _ (nodup_idsOf_dedupVars _) (nodup_idsOf_dedupVars _)
  intro i
  rw [lookup_dedup_absorb_right]

theorem merge_self_equals (xs : List StateVar) :
    State.equals (mergeStates (mkState xs) (mkState xs)) (mkState xs) = true := by
  show State.equals ⟨dedupVars (dedupVars xs ++ dedupVars xs)⟩ ⟨dedupVars xs⟩ = true
  rw [dedupVars_dedup_left]
  apply equals_of_lookup _ _ (nodup_idsOf_dedupVars _) (nodup_idsOf_dedupVars _)
  intro i
  rw [lookup_dedup_absorb_right, lookupValue_dedupVars, lookupValue_dedupVars,
    lastLookup_append]
  cases h : lastLookup xs i <;> simp [h]

/-- Any predicate on variables that is closed under the in-place value
override survives the constructor's duplicate resolution. -/
theorem dedupVars_pred (p : StateVar → Prop)
    (hclosed : ∀ y x, p y → p x → p { y with value := x.value }) :
    ∀ (xs acc : List StateVar), (∀ y ∈ acc, p y) → (∀ x ∈ xs, p x) →
      ∀ y ∈ xs.foldl insertVar acc, p y := by
  intro xs
  induction xs with
  | nil => intro acc hacc _ y hy; exact hacc y hy
  | cons x rest ih =>
    intro acc hacc hxs y hy
    rw [List.foldl_cons] at hy
    apply ih (insertVar acc x) ?_ (fun z hz => hxs z (by simp [hz])) y hy
    intro z hz
    unfold insertVar at hz
    by_cases hmem : acc.any (fun w => w.id == x.id) = true
    · rw [if_pos hmem] at hz
      rcases List.mem_map.mp hz with ⟨w, hw, hwz⟩
      subst hwz
      by_cases hid : w.id = x.id
      · rw [if_pos (beq_iff_eq.mpr hid)]
        exact hclosed w x (hacc w hw) (hxs x (by simp))
      · rw [if_neg (by simp [hid])]
        exact hacc w hw
    · rw [if_neg hmem] at hz
      rcases List.mem_append.mp hz with h1 | h2
      · exact hacc z h1
      · rw [List.mem_singleton] at h2
        rw [h2]
        exact hxs x (by simp)

/-- All values in a constructed state come from the input sequence; in
particular the all-zero property is preserved. -/
theorem dedupVars_values_zero (xs : List StateVar) (h : ∀ x ∈ xs, x.value = 0) :
    ∀ y ∈ dedupVars xs, y.value = 0 :=
  dedupVars_pred (fun v => v.value = 0) (fun _ _ _ hx => hx) xs []
    (fun y hy => absurd hy (List.not_mem_nil y)) h

end MergeLemmas

section SearchLemmas

/-- The relation "already-visited entries are not searched again": entry `b`
(earlier) is not `eqEAS`-equal to entry `a` (later). -/
def eqR (a b : EnclaveAndState) : Prop := eqEAS b a = false

theorem mem_dropLast {α : Type} {l : List α} {x : α} (h : x ∈ l.dropLast) : x ∈ l := by
  induction l with
  | nil => cases h
  | cons a rest ih =>
    cases rest with
    | nil => cases h
    | cons b rest2 =>
      rcases List.mem_cons.mp h with h1 | h2
      · exact h1 ▸ List.mem_cons_self _ _
      · exact List.mem_cons.mpr (Or.inr (ih h2))

/-- Both components of the worklist/visited pair grow by a common suffix
under any fold whose steps grow them by a common suffix of `P`-elements
while preserving distinctness. -/
theorem foldl_pair_grow {β : Type} (P : EnclaveAndState → Prop)
    (f : (List EnclaveAndState × List EnclaveAndState) → β →
      (List EnclaveAndState × List EnclaveAndState)) (l : List β)
    (h : ∀ pr b, b ∈ l → ∃ t, f pr b = (pr.1 ++ t, pr.2 ++ t) ∧ (∀ x ∈ t, P x) ∧
      (pr.2.Pairwise eqR → (pr.2 ++ t).Pairwise eqR)) :
    ∀ pr, ∃ t, l.foldl f pr = (pr.1 ++ t, pr.2 ++ t) ∧ (∀ x ∈ t, P x) ∧
      (pr.2.Pairwise eqR → (pr.2 ++ t).Pairwise eqR) := by
  induction l with
  | nil =>
    intro pr
    refine ⟨[], by simp, ?_, by simp⟩
    intro x hx
    cases hx
  | cons b rest ih =>
    intro pr
    obtain ⟨t1, hf, hP1, hpw1⟩ := h pr b (by simp)
    obtain ⟨t2, hf2, hP2, hpw2⟩ :=
      ih (fun pr b hb => h pr b (List.mem_cons.mpr (Or.inr hb))) (pr.1 ++ t1, pr.2 ++ t1)
    refine ⟨t1 ++ t2, ?_, ?_, ?_⟩
    · rw [List.foldl_cons, hf, hf2, List.append_assoc, List.append_assoc]
    · intro x hx
      rcases List.mem_append.mp hx with h1 | h2
      · exact hP1 x h1
      · exact hP2 x h2
    · intro hp
      rw [← List.append_assoc]
      exact hpw2 (hpw1 hp)

/-- Each push step either leaves the pair unchanged or appends one fresh
transformed entry to both components. -/
theorem pushTransformed_cases (pr : List EnclaveAndState × List EnclaveAndState)
    (x : EnclaveAndState) :
    pushTransformed pr x = pr ∨
      ((∀ y ∈ pr.2, eqEAS x y = false) ∧
        pushTransformed pr x = (pr.1 ++ [x], pr.2 ++ [x])) := by
  unfold pushTransformed
  by_cases hv : pr.2.any (fun y => eqEAS x y) = true
  · left
    rw [if_pos hv]
  · right
    refine ⟨?_, if_neg hv⟩
    intro y hy
    rw [List.any_eq_true] at hv
    by_contra hc
    exact hv ⟨y, hy, by revert hc; cases eqEAS x y <;> simp⟩

/-- The two nested loops of `expandOne` only append new entries; every new
entry's enclave is some doorway destination, its state is built by the
constructor from the current state plus that doorway's label after an
alternate of the root's mechanism, and distinctness of the visited list is
preserved. -/
theorem expandOne_grow (g : Graph) (root : EnclaveAndState)
    (pr : List EnclaveAndState × List EnclaveAndState) :
    ∃ t, expandOne g root pr = (pr.1 ++ t, pr.2 ++ t) ∧
      (∀ x ∈ t, ∃ n ∈ g.edges, ∃ alt ∈ getAlternates root.enclave.mechanism,
        x.enclave = n.dst ∧
        x.state = mkState ((mkState (root.state.vars ++ [alt])).vars ++ n.label.vars) ∧
        State.satisfies (mkState (root.state.vars ++ [alt])) n.label = true) ∧
      (pr.2.Pairwise eqR → (pr.2 ++ t).Pairwise eqR) := by
  unfold expandOne
  apply foldl_pair_grow _ _ _ ?_ pr
  intro pr2 current hcur
  apply foldl_pair_grow _ _ _ ?_ pr2
  intro pr3 n hn
  rcases pushTransformed_cases pr3
      { state := mkState (current.state.vars ++ n.label.vars), enclave := n.dst } with
    hsame | ⟨hfresh, hpush⟩
  · refine ⟨[], by simpa using hsame, ?_, by simp⟩
    intro x hx
    cases hx
  · rcases List.mem_map.mp hcur with ⟨alt, halt, hcureq⟩
    have hs : current.state = mkState (root.state.vars ++ [alt]) := by rw [← hcureq]
    have hnn := List.mem_filter.mp hn
    have hsat := ((Bool.and_eq_true _ _).mp hnn.2).2
    rw [hs] at hsat
    refine ⟨[{ state := mkState (current.state.vars ++ n.label.vars), enclave := n.dst }],
      by simpa using hpush, ?_, ?_⟩
    · intro x hx
      rw [List.mem_singleton] at hx
      subst hx
      refine ⟨n, hnn.1, alt, halt, rfl, ?_, hsat⟩
      show mkState (current.state.vars ++ n.label.vars) = _
      rw [hs]
    · intro hp
      rw [List.pairwise_append]
      refine ⟨hp, List.pairwise_singleton _ _, ?_⟩
      intro a ha b hb
      rw [List.mem_singleton] at hb
      subst hb
      exact hfresh a ha

theorem searchLoop_visited_mono (g : Graph) :
    ∀ (fuel : Nat) (adjacent visited : List EnclaveAndState) (x : EnclaveAndState),
      x ∈ visited → x ∈ searchLoop g fuel adjacent visited := by
  intro fuel
  induction fuel with
  | zero => intro _ _ x hx; exact hx
  | succ n ih =>
    intro adjacent visited x hx
    show x ∈ (match adjacent.getLast? with
      | none => visited
      | some root =>
        let p := expandOne g root (adjacent.dropLast, visited)
        searchLoop g n p.1 p.2)
    cases hL : adjacent.getLast? with
    | none => exact hx
    | some root =>
      obtain ⟨t, hgrow, _, _⟩ := expandOne_grow g root (adjacent.dropLast, visited)
      simp only [hgrow]
      exact ih _ _ x (List.mem_append.mpr (Or.inl hx))

/-- Every pair the search visits is the start pair or sits at some doorway
destination. -/
theorem searchLoop_shape (g : Graph) :
    ∀ (fuel : Nat) (adj vis : List EnclaveAndState) (x : EnclaveAndState),
      x ∈ searchLoop g fuel adj vis →
      x ∈ vis ∨ ∃ n ∈ g.edges, x.enclave = n.dst := by
  intro fuel
  induction fuel with
  | zero => intro _ vis x hx; exact Or.inl hx
  | succ m ih =>
    intro adj vis x hx
    revert hx
    show x ∈ (match adj.getLast? with
      | none => vis
      | some root =>
        let p := expandOne g root (adj.dropLast, vis)
        searchLoop g m p.1 p.2) → _
    cases hL : adj.getLast? with
    | none => exact Or.inl
    | some root =>
      intro hx
      obtain ⟨t, hgrow, hP, _⟩ := expandOne_grow g root (adj.dropLast, vis)
      have hx2 : x ∈ searchLoop g m (expandOne g root (adj.dropLast, vis)).1
          (expandOne g root (adj.dropLast, vis)).2 := hx
      rw [hgrow] at hx2
      rcases ih _ _ x hx2 with hv | he
      · rcases List.mem_append.mp hv with h1 | h2
        · exact Or.inl h1
        · obtain ⟨n, hn, _, _, hdst, _, _⟩ := hP x h2
          exact Or.inr ⟨n, hn, hdst⟩
      · exact Or.inr he

/-- A feasibility query whose destination id matches no doorway endpoint and
differs from the source returns the empty list. -/
theorem getStatesFromPath_fresh (g : Graph) (s : State) (src dst : Enclave)
    (h1 : dst.mechanism.id ≠ src.mechanism.id)
    (h2 : ∀ e ∈ g.edges, e.dst.mechanism.id ≠ dst.mechanism.id) :
    g.getStatesFromPath s src dst = [] := by
  unfold Graph.getStatesFromPath Graph.getAccessibleEnclaves
  rw [List.map_eq_nil_iff, List.filter_eq_nil_iff]
  intro x hx
  rcases searchLoop_shape g _ _ _ x hx with hv | ⟨n, hn, he⟩
  · rw [List.mem_singleton] at hv
    subst hv
    intro hc
    have hc2 : src.mechanism.id = dst.mechanism.id := by
      simpa [Enclave.equals] using hc
    exact h1 hc2.symm
  · intro hc
    rw [he] at hc
    exact h2 n hn (by simpa [Enclave.equals] using hc)

end SearchLemmas

section TerminationLemmas

theorem tuples_mem {α : Type} (A : List α) :
    ∀ (n : Nat) (l : List α), l ∈ tuples A n ↔ l.length = n ∧ ∀ x ∈ l, x ∈ A := by
  intro n
  induction n with
  | zero =>
    intro l
    constructor
    · intro h
      rw [show tuples A 0 = [[]] from rfl, List.mem_singleton] at h
      subst h
      exact ⟨rfl, fun x hx => absurd hx (List.not_mem_nil x)⟩
    · rintro ⟨h, _⟩
      rw [List.length_eq_zero] at h
      subst h
      exact List.mem_singleton.mpr rfl
  | succ n ih =>
    intro l
    rw [show tuples A (n + 1) = A.flatMap (fun a => (tuples A n).map (a :: ·)) from rfl]
    rw [List.mem_flatMap]
    constructor
    · rintro ⟨a, ha, hl⟩
      rcases List.mem_map.mp hl with ⟨t, ht, hteq⟩
      subst hteq
      obtain ⟨h1, h2⟩ := (ih t).mp ht
      refine ⟨by simp [h1], ?_⟩
      intro x hx
      rcases List.mem_cons.mp hx with h3 | h4
      · rw [h3]; exact ha
      · exact h2 x h4
    · rintro ⟨h1, h2⟩
      cases l with
      | nil => cases h1
      | cons x rest =>
        refine ⟨x, h2 x (by simp), List.mem_map.mpr ⟨rest, ?_, rfl⟩⟩
        exact (ih rest).mpr ⟨by simpa using h1, fun y hy => h2 y (by simp [hy])⟩

theorem tuples_length {α : Type} (A : List α) :
    ∀ n : Nat, (tuples A n).length = A.length ^ n := by
  intro n
  induction n with
  | zero => rfl
  | succ n ih =>
    rw [show tuples A (n + 1) = A.flatMap (fun a => (tuples A n).map (a :: ·)) from rfl]
    rw [List.length_flatMap]
    simp only [Function.comp_def]
    have : (A.map fun a => ((tuples A n).map (a :: ·)).length) =
        A.map (fun _ => (tuples A n).length) := by
      apply List.map_congr_left
      intro a _
      rw [List.length_map]
    rw [this, ih]
    simp [List.map_const, pow_succ, Nat.mul_comm]

theorem fpUniv_length (g : Graph) (start : EnclaveAndState) :
    (fpUniv g start).length = searchBound g start := by
  unfold fpUniv searchBound
  rw [List.length_flatMap]
  have : ((idsOf (mechPool g start)).map
      (List.length ∘ fun i => (tuples (optVals g start) (poolIds g start).length).map
        (fun t => (i, t)))) =
      (idsOf (mechPool g start)).map
        (fun _ => (tuples (optVals g start) (poolIds g start).length).length) := by
    apply List.map_congr_left
    intro a _
    show ((tuples (optVals g start) (poolIds g start).length).map (fun t => (a, t))).length = _
    rw [List.length_map]
  rw [this]
  have hsum : ((idsOf (mechPool g start)).map
      (fun _ => (tuples (optVals g start) (poolIds g start).length).length)).sum =
      (idsOf (mechPool g start)).length *
        (tuples (optVals g start) (poolIds g start).length).length := by
    simp [List.map_const]
  rw [hsum, tuples_length]
  have h1 : (idsOf (mechPool g start)).length = (mechPool g start).length :=
    List.length_map _ _
  have h2 : (optVals g start).length = 1 + (poolVals g start).length := by
    unfold optVals
    rw [List.length_cons, List.length_map]
    omega
  rw [h1, h2]

theorem fp_mem_univ (g : Graph) (start : EnclaveAndState) (p : EnclaveAndState)
    (h : goodEAS g start p) : fp g start p ∈ fpUniv g start := by
  obtain ⟨hmech, _, hvars⟩ := h
  unfold fp fpUniv
  rw [List.mem_flatMap]
  refine ⟨p.enclave.mechanism.id, List.mem_map.mpr ⟨p.enclave.mechanism, hmech, rfl⟩,
    List.mem_map.mpr ⟨(poolIds g start).map (fun i => lookupValue p.state.vars i), ?_, rfl⟩⟩
  rw [tuples_mem]
  refine ⟨List.length_map _ _, ?_⟩
  intro x hx
  rcases List.mem_map.mp hx with ⟨i, _, hxeq⟩
  subst hxeq
  unfold optVals
  cases hl : lookupValue p.state.vars i with
  | none => simp
  | some v =>
    obtain ⟨y, hy, _, hyv⟩ := exists_of_lookupValue_some p.state.vars i v hl
    rw [List.mem_cons]
    right
    exact List.mem_map.mpr ⟨v, hyv ▸ (hvars y hy).2, rfl⟩

theorem fp_inj (g : Graph) (start : EnclaveAndState) (p q : EnclaveAndState)
    (hp : goodEAS g start p) (hq : goodEAS g start q)
    (h : fp g start p = fp g start q) : eqEAS p q = true := by
  obtain ⟨_, hpn, hpvars⟩ := hp
  obtain ⟨_, hqn, hqvars⟩ := hq
  have hid : p.enclave.mechanism.id = q.enclave.mechanism.id := congrArg Prod.fst h
  have hmap : ((poolIds g start).map (fun i => lookupValue p.state.vars i)) =
      ((poolIds g start).map (fun i => lookupValue q.state.vars i)) := congrArg Prod.snd h
  have hlook : ∀ i, lookupValue p.state.vars i = lookupValue q.state.vars i := by
    intro i
    by_cases hi : i ∈ poolIds g start
    · have := List.map_eq_map_iff.mp hmap
      exact this i hi
    · have hnone : ∀ (s : List StateVar), (∀ v ∈ s, goodVarP (poolIds g start)
          (poolVals g start) v) → lookupValue s i = none := by
        intro s hs
        apply lookupValue_eq_none
        intro y hy hc
        exact hi (hc ▸ (hs y hy).1)
      rw [hnone p.state.vars hpvars, hnone q.state.vars hqvars]
  unfold eqEAS Enclave.equals
  rw [Bool.and_eq_true]
  exact ⟨beq_iff_eq.mpr hid, equals_of_lookup p.state.vars q.state.vars hpn hqn hlook⟩

/-- The visited list of the search stays within the finite product space:
pairwise-distinct good entries are no more numerous than the fingerprint
universe. -/
theorem visited_le_bound (g : Graph) (start : EnclaveAndState)
    (vis : List EnclaveAndState)
    (hgood : ∀ p ∈ vis, goodEAS g start p)
    (hpw : vis.Pairwise eqR) : vis.length ≤ searchBound g start := by
  have hnodup : (vis.map (fp g start)).Nodup := by
    show List.Pairwise (fun a b => a ≠ b) (vis.map (fp g start))
    rw [List.pairwise_map]
    apply List.Pairwise.imp_of_mem ?_ hpw
    intro a b ha hb hR hfp
    have : eqEAS b a = true := fp_inj g start b a (hgood b hb) (hgood a ha) hfp.symm
    rw [hR] at this
    cases this
  have hsub : (vis.map (fp g start)) ⊆ fpUniv g start := by
    intro x hx
    rcases List.mem_map.mp hx with ⟨p, hp, hpeq⟩
    exact hpeq ▸ fp_mem_univ g start p (hgood p hp)
  have := List.Subperm.length_le (List.subperm_of_subset hnodup hsub)
  rw [List.length_map, fpUniv_length] at this
  exact this

theorem goodState_mk (ids vals : List Nat) (xs : List StateVar)
    (h : ∀ x ∈ xs, goodVarP ids vals x) : goodState ids vals (mkState xs) :=
  ⟨nodup_idsOf_dedupVars xs,
    dedupVars_pred (goodVarP ids vals)
      (fun _ _ hy hx => ⟨hy.1, hx.2⟩) xs []
      (fun y hy => absurd hy (List.not_mem_nil y)) h⟩

theorem start_vars_good (g : Graph) (start : EnclaveAndState) :
    ∀ x ∈ start.state.vars, goodVarP (poolIds g start) (poolVals g start) x := by
  intro x hx
  have hb : x ∈ basePool g start := List.mem_append.mpr (Or.inl hx)
  exact ⟨List.mem_append.mpr (Or.inl (List.mem_map.mpr ⟨x, hb, rfl⟩)),
    List.mem_append.mpr (Or.inl (List.mem_map.mpr ⟨x, hb, rfl⟩))⟩

theorem label_vars_good (g : Graph) (start : EnclaveAndState) (n : Edge)
    (hn : n ∈ g.edges) :
    ∀ x ∈ n.label.vars, goodVarP (poolIds g start) (poolVals g start) x := by
  intro x hx
  have hb : x ∈ basePool g start :=
    List.mem_append.mpr (Or.inr (List.mem_flatMap.mpr ⟨n, hn, hx⟩))
  exact ⟨List.mem_append.mpr (Or.inl (List.mem_map.mpr ⟨x, hb, rfl⟩)),
    List.mem_append.mpr (Or.inl (List.mem_map.mpr ⟨x, hb, rfl⟩))⟩

theorem alternates_good (g : Graph) (start : EnclaveAndState) (m : StateVar)
    (hm : m ∈ mechPool g start) :
    ∀ alt ∈ getAlternates m, goodVarP (poolIds g start) (poolVals g start) alt := by
  intro alt halt
  have hid : alt.id = m.id := by
    unfold getAlternates at halt
    by_cases hr : m.reversible = true
    · rw [if_pos hr] at halt
      rcases List.mem_map.mp halt with ⟨a, _, haeq⟩
      rw [← haeq]
    · rw [if_neg hr] at halt
      by_cases hz : m.value = 0
      · rw [if_pos hz] at halt
        rcases List.mem_cons.mp halt with h1 | h2
        · rw [h1]
        · rw [List.mem_singleton] at h2
          rw [h2]
      · rw [if_neg hz] at halt
        rw [List.mem_singleton] at halt
        rw [halt]
  have hidp : alt.id ∈ poolIds g start := by
    rw [hid]
    exact List.mem_append.mpr (Or.inr (List.mem_map.mpr ⟨m, hm, rfl⟩))
  have hvalp : alt.value ∈ poolVals g start := by
    apply List.mem_append.mpr
    right
    apply List.mem_flatMap.mpr
    refine ⟨m, hm, ?_⟩
    unfold getAlternates at halt
    by_cases hr : m.reversible = true
    · rw [if_pos hr] at halt
      rcases List.mem_map.mp halt with ⟨a, ha, haeq⟩
      rw [← haeq]
      exact List.mem_append.mpr (Or.inl ha)
    · rw [if_neg hr] at halt
      by_cases hz : m.value = 0
      · rw [if_pos hz] at halt
        rcases List.mem_cons.mp halt with h1 | h2
        · rw [h1]
          exact List.mem_append.mpr (Or.inr (by simp))
        · rw [List.mem_singleton] at h2
          rw [h2]
          exact List.mem_append.mpr (Or.inr (by simp))
      · rw [if_neg hz] at halt
        rw [List.mem_singleton] at halt
        rw [halt]
        exact List.mem_append.mpr (Or.inr (by simp))
  exact ⟨hidp, hvalp⟩

/-- Every entry `expandOne` pushes stays inside the finite product space. -/
theorem expandOne_inv (g : Graph) (start : EnclaveAndState) (root : EnclaveAndState)
    (pr : List EnclaveAndState × List EnclaveAndState)
    (hroot : goodEAS g start root)
    (h1 : ∀ p ∈ pr.1, goodEAS g start p)
    (h2 : ∀ p ∈ pr.2, goodEAS g start p)
    (h3 : pr.2.Pairwise eqR) :
    ∃ t, expandOne g root pr = (pr.1 ++ t, pr.2 ++ t) ∧
      (∀ p ∈ pr.1 ++ t, goodEAS g start p) ∧
      (∀ p ∈ pr.2 ++ t, goodEAS g start p) ∧
      (pr.2 ++ t).Pairwise eqR := by
  obtain ⟨t, heq, hP, hpw⟩ := expandOne_grow g root pr
  have htgood : ∀ x ∈ t, goodEAS g start x := by
    intro x hx
    obtain ⟨n, hn, alt, halt, hdst, hstate, _⟩ := hP x hx
    obtain ⟨hmech, _, hrvars⟩ := hroot
    constructor
    · rw [hdst]
      exact List.mem_cons.mpr (Or.inr (List.mem_map.mpr ⟨n, hn, rfl⟩))
    · rw [hstate]
      apply goodState_mk
      intro y hy
      rcases List.mem_append.mp hy with hy1 | hy2
      · have hinner : goodState (poolIds g start) (poolVals g start)
            (mkState (root.state.vars ++ [alt])) := by
          apply goodState_mk
          intro z hz
          rcases List.mem_append.mp hz with hz1 | hz2
          · exact hrvars z hz1
          · rw [List.mem_singleton] at hz2
            rw [hz2]
            exact alternates_good g start root.enclave.mechanism hmech alt halt
        exact hinner.2 y hy1
      · exact label_vars_good g start n hn y hy2
  refine ⟨t, heq, ?_, ?_, hpw h3⟩
  · intro p hp
    rcases List.mem_append.mp hp with hp1 | hp2
    · exact h1 p hp1
    · exact htgood p hp2
  · intro p hp
    rcases List.mem_append.mp hp with hp1 | hp2
    · exact h2 p hp1
    · exact htgood p hp2

theorem getLast?_mem {α : Type} (l : List α) (a : α) (h : l.getLast? = some a) : a ∈ l := by
  induction l with
  | nil => cases h
  | cons x rest ih =>
    cases rest with
    | nil =>
      rw [show (x :: []).getLast? = some x from rfl] at h
      rw [List.mem_singleton]
      exact (Option.some_inj.mp h).symm
    | cons y rest2 =>
      rw [show (x :: y :: rest2).getLast? = (y :: rest2).getLast? from rfl] at h
      exact List.mem_cons.mpr (Or.inr (ih h))

theorem getLast?_decomp {α : Type} (l : List α) (a : α) (h : l.getLast? = some a) :
    l = l.dropLast ++ [a] := by
  induction l with
  | nil => cases h
  | cons x rest ih =>
    cases rest with
    | nil =>
      rw [show (x :: []).getLast? = some x from rfl] at h
      rw [(Option.some_inj.mp h).symm]
      rfl
    | cons y rest2 =>
      rw [show (x :: y :: rest2).getLast? = (y :: rest2).getLast? from rfl] at h
      show x :: (y :: rest2) = (x :: y :: rest2).dropLast ++ [a]
      rw [show (x :: y :: rest2).dropLast = x :: (y :: rest2).dropLast from rfl]
      rw [List.cons_append]
      rw [← ih h]

/-- The worklist loop drains within any fuel at least the measure
`(bound + 1 - |visited|) + |worklist|`: each iteration either pops an entry
without pushing or pushes fresh entries that enlarge the distinct visited
list, which the product space caps. -/
theorem loopEndsIn_of_bound (g : Graph) (start : EnclaveAndState) :
    ∀ (fuel : Nat) (adjacent visited : List EnclaveAndState),
      (∀ p ∈ adjacent, goodEAS g start p) →
      (∀ p ∈ visited, goodEAS g start p) →
      visited.Pairwise eqR →
      (searchBound g start + 1 - visited.length) + adjacent.length ≤ fuel →
      loopEndsIn g fuel adjacent visited = true := by
  intro fuel
  induction fuel with
  | zero =>
    intro adj vis h1 h2 h3 hm
    have hb := visited_le_bound g start vis h2 h3
    omega
  | succ m ih =>
    intro adj vis h1 h2 h3 hm
    show (match adj.getLast? with
      | none => true
      | some root =>
        let p := expandOne g root (adj.dropLast, vis)
        loopEndsIn g m p.1 p.2) = true
    cases hL : adj.getLast? with
    | none => rfl
    | some root =>
      obtain ⟨t, heq, g1, g2, g3⟩ := expandOne_inv g start root (adj.dropLast, vis)
        (h1 root (getLast?_mem adj root hL))
        (fun p hp => h1 p (mem_dropLast hp)) h2 h3
      show loopEndsIn g m (expandOne g root (adj.dropLast, vis)).1
        (expandOne g root (adj.dropLast, vis)).2 = true
      rw [heq]
      apply ih _ _ g1 g2 g3
      have hbound := visited_le_bound g start (vis ++ t) g2 g3
      rw [List.length_append] at hbound
      have hadj : adj.length = adj.dropLast.length + 1 := by
        have h4 := congrArg List.length (getLast?_decomp adj root hL)
        rw [List.length_append] at h4
        simpa using h4
      show (searchBound g start + 1 - (vis ++ t).length) + (adj.dropLast ++ t).length ≤ m
      rw [List.length_append, List.length_append]
      omega

/-- The invariant of the search loop also holds of its result list. -/
theorem searchLoop_inv (g : Graph) (start : EnclaveAndState) :
    ∀ (fuel : Nat) (adjacent visited : List EnclaveAndState),
      (∀ p ∈ adjacent, goodEAS g start p) →
      (∀ p ∈ visited, goodEAS g start p) →
      visited.Pairwise eqR →
      (∀ p ∈ searchLoop g fuel adjacent visited, goodEAS g start p) ∧
      (searchLoop g fuel adjacent visited).Pairwise eqR := by
  intro fuel
  induction fuel with
  | zero => intro _ vis _ h2 h3; exact ⟨h2, h3⟩
  | succ m ih =>
    intro adj vis h1 h2 h3
    cases hL : adj.getLast? with
    | none =>
      have hstep : searchLoop g (m + 1) adj vis = vis := by
        show (match adj.getLast? with
          | none => vis
          | some root =>
            let p := expandOne g root (adj.dropLast, vis)
            searchLoop g m p.1 p.2) = vis
        rw [hL]
      rw [hstep]
      exact ⟨h2, h3⟩
    | some root =>
      obtain ⟨t, heq, g1, g2, g3⟩ := expandOne_inv g start root (adj.dropLast, vis)
        (h1 root (getLast?_mem adj root hL))
        (fun p hp => h1 p (mem_dropLast hp)) h2 h3
      have hstep : searchLoop g (m + 1) adj vis =
          searchLoop g m (adj.dropLast ++ t) (vis ++ t) := by
        show (match adj.getLast? with
          | none => vis
          | some root =>
            let p := expandOne g root (adj.dropLast, vis)
            searchLoop g m p.1 p.2) = _
        rw [hL]
        show searchLoop g m (expandOne g root (adj.dropLast, vis)).1
          (expandOne g root (adj.dropLast, vis)).2 = _
        rw [heq]
      rw [hstep]
      exact ih _ _ g1 g2 g3

end TerminationLemmas

section ActivationLemmas

theorem activated_rev_value (e : Enclave) (s : State) (cur : Nat) (o : Nat → Nat) (ctr : Nat)
    (hrev : e.mechanism.reversible = true)
    (hcur : lookupValue s.vars e.mechanism.id = some cur) :
    (e.activated s o ctr).1.value =
      if rand o (ctr + 1) (e.mechanism.states - 1) ≥ cur
      then rand o (ctr + 1) (e.mechanism.states - 1) + 1
      else rand o (ctr + 1) (e.mechanism.states - 1) := by
  unfold Enclave.activated
  rw [if_pos hrev]
  simp [hcur]

theorem activated_irrev_value (e : Enclave) (s : State) (o : Nat → Nat) (ctr : Nat)
    (hrev : e.mechanism.reversible = false) :
    (e.activated s o ctr).1.value = rand o ctr (e.mechanism.states - 1) + 1 := by
  unfold Enclave.activated
  rw [if_neg (by simp [hrev])]

theorem rand_lt (o : Nat → Nat) (ctr n : Nat) (h : n ≠ 0) : rand o ctr n < n := by
  unfold rand
  rw [if_neg h]
  exact Nat.mod_lt _ (Nat.pos_of_ne_zero h)

theorem rand_const (d ctr n : Nat) (h : d < n) : rand (fun _ => d) ctr n = d := by
  unfold rand
  rw [if_neg (by omega)]
  exact Nat.mod_eq_of_lt h

end ActivationLemmas

section BuilderLemmas

theorem choice_mem {α : Type} [Inhabited α] (l : List α) (idx : Nat) (h : idx < l.length) :
    choice l idx ∈ l := by
  unfold choice
  rw [List.getD_eq_getElem l default h]
  exact List.getElem_mem h

theorem symEdges_addEdge (g : Graph) (src dst : Enclave) (lbl : State)
    (h : SymEdges g.edges) : SymEdges (g.addEdge src dst lbl).edges := by
  intro a b l
  show (⟨a, b, l⟩ : Edge) ∈ g.edges ++ [⟨src, dst, lbl⟩, ⟨dst, src, lbl⟩] ↔
    (⟨b, a, l⟩ : Edge) ∈ g.edges ++ [⟨src, dst, lbl⟩, ⟨dst, src, lbl⟩]
  simp only [List.mem_append, List.mem_cons, List.mem_singleton, Edge.mk.injEq,
    List.not_mem_nil, or_false]
  constructor
  · rintro (h1 | ⟨rfl, rfl, rfl⟩ | ⟨rfl, rfl, rfl⟩)
    · exact Or.inl ((h a b l).mp h1)
    · exact Or.inr (Or.inr ⟨rfl, rfl, rfl⟩)
    · exact Or.inr (Or.inl ⟨rfl, rfl, rfl⟩)
  · rintro (h1 | ⟨rfl, rfl, rfl⟩ | ⟨rfl, rfl, rfl⟩)
    · exact Or.inl ((h a b l).mpr h1)
    · exact Or.inr (Or.inr ⟨rfl, rfl, rfl⟩)
    · exact Or.inr (Or.inl ⟨rfl, rfl, rfl⟩)

theorem addEdge_nodes (g : Graph) (src dst : Enclave) (lbl : State) :
    (g.addEdge src dst lbl).nodes = g.nodes := rfl

theorem addEdge_edges (g : Graph) (src dst : Enclave) (lbl : State) :
    (g.addEdge src dst lbl).edges = g.edges ++ [⟨src, dst, lbl⟩, ⟨dst, src, lbl⟩] := rfl

theorem symEdges_foldl_addEdge (ops : List (Enclave × Enclave × State)) :
    ∀ (g : Graph), SymEdges g.edges →
      SymEdges (ops.foldl (fun g op => g.addEdge op.1 op.2.1 op.2.2) g).edges := by
  induction ops with
  | nil => intro g h; exact h
  | cons op rest ih =>
    intro g h
    exact ih _ (symEdges_addEdge g op.1 op.2.1 op.2.2 h)

/-- What one iteration of the builder's inner loop does: it removes the
chosen enclave from the mutable pool, moves there, leaves the nodes alone,
and either adopts a state (graph untouched) or commits a doorway from the
current enclave exactly when the feasibility query came back empty,
recording the event. -/
theorem innerStep_chr (o : Nat → Nat) (bs : BuildState) (ml : List Enclave)
    (conditions : List StateVar) :
    (innerStep o bs ml conditions).2.1 = ml.eraseIdx (rand o bs.ctr ml.length) ∧
    (innerStep o bs ml conditions).1.currentEnclave = choice ml (rand o bs.ctr ml.length) ∧
    (innerStep o bs ml conditions).1.graph.nodes = bs.graph.nodes ∧
    (((innerStep o bs ml conditions).1.graph = bs.graph ∧
      (innerStep o bs ml conditions).1.events = bs.events) ∨
     (bs.graph.getStatesFromPath bs.currentState bs.currentEnclave
        (choice ml (rand o bs.ctr ml.length)) = [] ∧
      (innerStep o bs ml conditions).1.graph =
        bs.graph.addEdge bs.currentEnclave (choice ml (rand o bs.ctr ml.length))
          bs.currentState.relevant ∧
      (innerStep o bs ml conditions).1.events = bs.events ++
        [⟨bs.graph, bs.currentState, bs.currentEnclave,
          choice ml (rand o bs.ctr ml.length)⟩])) := by
  unfold innerStep
  by_cases hs : (bs.graph.getStatesFromPath bs.currentState bs.currentEnclave
      (choice ml (rand o bs.ctr ml.length))).length > 0
  · simp only [if_pos hs]
    refine ⟨?_, ?_, ?_, Or.inl ⟨?_, ?_⟩⟩ <;> trivial
  · simp only [if_neg hs]
    have hemp : bs.graph.getStatesFromPath bs.currentState bs.currentEnclave
        (choice ml (rand o bs.ctr ml.length)) = [] := by
      rcases Nat.eq_zero_or_pos (bs.graph.getStatesFromPath bs.currentState bs.currentEnclave
        (choice ml (rand o bs.ctr ml.length))).length with h0 | hp
      · exact List.length_eq_zero.mp h0
      · exact absurd hp hs
    refine ⟨?_, ?_, ?_, Or.inr ⟨hemp, ?_, ?_⟩⟩ <;> trivial

/-- Facts preserved by the builder's whole inner loop: nodes are untouched,
edges stay between committed enclaves, the current enclave stays committed,
the mirrored-edge symmetry is kept, and every recorded event's feasibility
query was empty. -/
theorem innerLoop_facts (o : Nat → Nat) :
    ∀ (k : Nat) (bs : BuildState) (ml : List Enclave) (conditions : List StateVar),
      k ≤ ml.length →
      (∀ x ∈ ml, x ∈ bs.graph.nodes) →
      (∀ e ∈ bs.graph.edges,
        e.src.mechanism.id ∈ nodeIds bs.graph ∧ e.dst.mechanism.id ∈ nodeIds bs.graph) →
      bs.currentEnclave.mechanism.id ∈ nodeIds bs.graph →
      (innerLoop o k bs ml conditions).1.graph.nodes = bs.graph.nodes ∧
      (∀ e ∈ (innerLoop o k bs ml conditions).1.graph.edges,
        e.src.mechanism.id ∈ nodeIds bs.graph ∧ e.dst.mechanism.id ∈ nodeIds bs.graph) ∧
      (innerLoop o k bs ml conditions).1.currentEnclave.mechanism.id ∈ nodeIds bs.graph ∧
      (SymEdges bs.graph.edges → SymEdges (innerLoop o k bs ml conditions).1.graph.edges) ∧
      (∀ ev ∈ (innerLoop o k bs ml conditions).1.events, ev ∈ bs.events ∨ EventOK ev) := by
  intro k
  induction k with
  | zero =>
    intro bs ml conditions _ _ hedges hcur
    exact ⟨rfl, hedges, hcur, fun h => h, fun ev hev => Or.inl hev⟩
  | succ m ih =>
    intro bs ml conditions hk hml hedges hcur
    have hlen : 0 < ml.length := by omega
    have hidx : rand o bs.ctr ml.length < ml.length :=
      rand_lt o bs.ctr ml.length (by omega)
    have hdiff : choice ml (rand o bs.ctr ml.length) ∈ bs.graph.nodes :=
      hml _ (choice_mem ml _ hidx)
    have hdiffid : (choice ml (rand o bs.ctr ml.length)).mechanism.id ∈ nodeIds bs.graph :=
      List.mem_map.mpr ⟨_, hdiff, rfl⟩
    obtain ⟨hml2, hce2, hnodes2, hbranch⟩ := innerStep_chr o bs ml conditions
    show (innerLoop o m (innerStep o bs ml conditions).1 (innerStep o bs ml conditions).2.1
        (innerStep o bs ml conditions).2.2).1.graph.nodes = bs.graph.nodes ∧ _
    have hlen2 : m ≤ (innerStep o bs ml conditions).2.1.length := by
      rw [hml2, List.length_eraseIdx]
      simp only [hidx, if_pos]
      omega
    rcases hbranch with ⟨hg, hev⟩ | ⟨hemp, hg, hev⟩
    · have hml3 : ∀ x ∈ (innerStep o bs ml conditions).2.1,
          x ∈ (innerStep o bs ml conditions).1.graph.nodes := by
        intro x hx
        rw [hnodes2]
        exact hml x (by rw [hml2] at hx; exact List.mem_of_mem_eraseIdx hx)
      have hnid : nodeIds (innerStep o bs ml conditions).1.graph = nodeIds bs.graph := by
        unfold nodeIds
        rw [hnodes2]
      obtain ⟨c1, c2, c3, c4, c5⟩ := ih (innerStep o bs ml conditions).1
        (innerStep o bs ml conditions).2.1 (innerStep o bs ml conditions).2.2 hlen2 hml3
        (by rw [hg]; exact hedges)
        (by rw [hce2, hnid]; exact hdiffid)
      refine ⟨by rw [c1, hnodes2], ?_, ?_, ?_, ?_⟩
      · intro e he
        have := c2 e he
        rw [hnid] at this
        exact this
      · rw [hnid] at c3
        exact c3
      · intro hsym
        apply c4
        rw [hg]
        exact hsym
      · intro ev hev2
        rcases c5 ev hev2 with h1 | h2
        · rw [hev] at h1
          exact Or.inl h1
        · exact Or.inr h2
    · have hml3 : ∀ x ∈ (innerStep o bs ml conditions).2.1,
          x ∈ (innerStep o bs ml conditions).1.graph.nodes := by
        intro x hx
        rw [hnodes2]
        exact hml x (by rw [hml2] at hx; exact List.mem_of_mem_eraseIdx hx)
      have hnid : nodeIds (innerStep o bs ml conditions).1.graph = nodeIds bs.graph := by
        unfold nodeIds
        rw [hnodes2]
      have hedges2 : ∀ e ∈ (innerStep o bs ml conditions).1.graph.edges,
          e.src.mechanism.id ∈ nodeIds bs.graph ∧ e.dst.mechanism.id ∈ nodeIds bs.graph := by
        intro e he
        rw [hg, addEdge_edges] at he
        rcases List.mem_append.mp he with h1 | h2
        · exact hedges e h1
        · rcases List.mem_cons.mp h2 with h3 | h4
          · subst h3
            exact ⟨hcur, hdiffid⟩
          · rw [List.mem_singleton] at h4
            subst h4
            exact ⟨hdiffid, hcur⟩
      obtain ⟨c1, c2, c3, c4, c5⟩ := ih (innerStep o bs ml conditions).1
        (innerStep o bs ml conditions).2.1 (innerStep o bs ml conditions).2.2 hlen2 hml3
        (by rw [hnid]; exact hedges2)
        (by rw [hce2, hnid]; exact hdiffid)
      refine ⟨by rw [c1, hnodes2], ?_, ?_, ?_, ?_⟩
      · intro e he
        have := c2 e he
        rw [hnid] at this
        exact this
      · rw [hnid] at c3
        exact c3
      · intro hsym
        apply c4
        rw [hg]
        exact symEdges_addEdge _ _ _ _ hsym
      · intro ev hev2
        rcases c5 ev hev2 with h1 | h2
        · rw [hev] at h1
          rcases List.mem_append.mp h1 with h3 | h4
          · exact Or.inl h3
          · rw [List.mem_singleton] at h4
            subst h4
            exact Or.inr hemp
        · exact Or.inr h2

theorem mutable_of_zero (n : Enclave) (h : n.mechanism.value = 0) :
    n.mutable = true := by
  unfold Enclave.mutable
  rw [h]
  simp

/-- What one `place next enclave` step computes: the pre-commit graph `g3`
and events `evs3` (after the optional anchor connection), and the final
graph, enclave and events. -/
theorem buildStep_chr (o : Nat → Nat) (bs : BuildState) (v : StateVar) :
    ∃ (g3 : Graph) (evs3 : List BuildEvent),
      ((g3 = (stepInner o bs).1.graph ∧ evs3 = (stepInner o bs).1.events) ∨
       ((stepInner o bs).1.graph.getStatesFromPath (stepInner o bs).1.currentState
          (stepInner o bs).1.currentEnclave (stepAnchor o bs) = [] ∧
        g3 = (stepInner o bs).1.graph.addEdge (stepInner o bs).1.currentEnclave
          (stepAnchor o bs) (stepInner o bs).1.currentState.relevant ∧
        evs3 = (stepInner o bs).1.events ++
          [⟨(stepInner o bs).1.graph, (stepInner o bs).1.currentState,
            (stepInner o bs).1.currentEnclave, stepAnchor o bs⟩])) ∧
      g3.nodes = (stepInner o bs).1.graph.nodes ∧
      (∀ e ∈ g3.edges, e ∈ (stepInner o bs).1.graph.edges ∨
        (e.src = (stepInner o bs).1.currentEnclave ∧ e.dst = stepAnchor o bs) ∨
        (e.src = stepAnchor o bs ∧ e.dst = (stepInner o bs).1.currentEnclave)) ∧
      (SymEdges (stepInner o bs).1.graph.edges → SymEdges g3.edges) ∧
      (buildStep o bs v).graph =
        (Graph.mk g3.edges (g3.nodes ++ [⟨v⟩])).addEdge (stepAnchor o bs) ⟨v⟩
          (mkState (stepInner o bs).2) ∧
      (buildStep o bs v).currentEnclave = ⟨v⟩ ∧
      (buildStep o bs v).events = evs3 ++
        [⟨Graph.mk g3.edges (g3.nodes ++ [⟨v⟩]), (stepInner o bs).1.currentState,
          stepAnchor o bs, ⟨v⟩⟩] := by
  by_cases hq : ((stepInner o bs).1.graph.getStatesFromPath (stepInner o bs).1.currentState
      (stepInner o bs).1.currentEnclave (stepAnchor o bs)).length = 0
  · refine ⟨(stepInner o bs).1.graph.addEdge (stepInner o bs).1.currentEnclave
        (stepAnchor o bs) (stepInner o bs).1.currentState.relevant,
      (stepInner o bs).1.events ++
        [⟨(stepInner o bs).1.graph, (stepInner o bs).1.currentState,
          (stepInner o bs).1.currentEnclave, stepAnchor o bs⟩],
      Or.inr ⟨List.length_eq_zero.mp hq, rfl, rfl⟩,
      addEdge_nodes _ _ _ _, ?_, symEdges_addEdge _ _ _ _, ?_, ?_, ?_⟩
    · intro e he
      rw [addEdge_edges] at he
      rcases List.mem_append.mp he with h1 | h2
      · exact Or.inl h1
      · rcases List.mem_cons.mp h2 with h3 | h4
        · subst h3
          exact Or.inr (Or.inl ⟨rfl, rfl⟩)
        · rw [List.mem_singleton] at h4
          subst h4
          exact Or.inr (Or.inr ⟨rfl, rfl⟩)
    · simp only [buildStep]
      rw [if_pos hq]
    · rfl
    · simp only [buildStep]
      rw [if_pos hq]
  · refine ⟨(stepInner o bs).1.graph, (stepInner o bs).1.events,
      Or.inl ⟨rfl, rfl⟩, rfl, fun e he => Or.inl he, fun h => h, ?_, ?_, ?_⟩
    · simp only [buildStep]
      rw [if_neg hq]
    · rfl
    · simp only [buildStep]
      rw [if_neg hq]

/-- Facts about one `place next enclave` step under the builder invariant:
the new enclave is appended, mechanisms stay at baseline, edges join
committed enclaves, symmetry is kept, every recorded event's query was
empty. -/
theorem buildStep_facts (o : Nat → Nat) (bs : BuildState) (v : StateVar)
    (hne : bs.graph.nodes ≠ [])
    (hzero : ∀ n ∈ bs.graph.nodes, n.mechanism.value = 0)
    (hedges : ∀ e ∈ bs.graph.edges,
      e.src.mechanism.id ∈ nodeIds bs.graph ∧ e.dst.mechanism.id ∈ nodeIds bs.graph)
    (hcur : bs.currentEnclave.mechanism.id ∈ nodeIds bs.graph)
    (hv : v.id ∉ nodeIds bs.graph) :
    (buildStep o bs v).graph.nodes = bs.graph.nodes ++ [⟨v⟩] ∧
    (v.value = 0 → ∀ n ∈ (buildStep o bs v).graph.nodes, n.mechanism.value = 0) ∧
    (∀ e ∈ (buildStep o bs v).graph.edges,
      e.src.mechanism.id ∈ nodeIds bs.graph ++ [v.id] ∧
      e.dst.mechanism.id ∈ nodeIds bs.graph ++ [v.id]) ∧
    (buildStep o bs v).currentEnclave = ⟨v⟩ ∧
    (SymEdges bs.graph.edges → SymEdges (buildStep o bs v).graph.edges) ∧
    (∀ ev ∈ (buildStep o bs v).events, ev ∈ bs.events ∨ EventOK ev) := by
  have hmut : stepMutables bs = bs.graph.nodes :=
    List.filter_eq_self.mpr (fun n hn => mutable_of_zero n (hzero n hn))
  have hlen : 0 < bs.graph.nodes.length := List.length_pos.mpr hne
  have hnum : rand o (bs.ctr + 1) ((stepMutables bs).length - 1) + 1 ≤
      (stepMutables bs).length := by
    rw [hmut]
    rcases Nat.eq_zero_or_pos (bs.graph.nodes.length - 1) with h0 | hp
    · unfold rand
      rw [h0, if_pos rfl]
      omega
    · have := rand_lt o (bs.ctr + 1) (bs.graph.nodes.length - 1) (by omega)
      omega
  have hsub : ∀ x ∈ stepMutables bs, x ∈ bs.graph.nodes := by
    rw [hmut]
    exact fun x hx => hx
  obtain ⟨c1, c2, c3, c4, c5⟩ := innerLoop_facts o
    (rand o (bs.ctr + 1) ((stepMutables bs).length - 1) + 1)
    { bs with ctr := bs.ctr + 2 } (stepMutables bs) [] hnum hsub hedges hcur
  have d1 : (stepInner o bs).1.graph.nodes = bs.graph.nodes := c1
  have d2 : ∀ e ∈ (stepInner o bs).1.graph.edges,
      e.src.mechanism.id ∈ nodeIds bs.graph ∧ e.dst.mechanism.id ∈ nodeIds bs.graph := c2
  have d3 : (stepInner o bs).1.currentEnclave.mechanism.id ∈ nodeIds bs.graph := c3
  have d4 : SymEdges bs.graph.edges → SymEdges (stepInner o bs).1.graph.edges := c4
  have d5 : ∀ ev ∈ (stepInner o bs).1.events, ev ∈ bs.events ∨ EventOK ev := c5
  obtain ⟨g3, evs3, hbr, hn3, he3, hsym3, hg, hce, hevs⟩ := buildStep_chr o bs v
  have hanchor : stepAnchor o bs ∈ bs.graph.nodes :=
    choice_mem _ _ (rand_lt o bs.ctr _ (by omega))
  have hanchorid : (stepAnchor o bs).mechanism.id ∈ nodeIds bs.graph :=
    List.mem_map.mpr ⟨_, hanchor, rfl⟩
  have hg3n : g3.nodes = bs.graph.nodes := hn3.trans d1
  have hg3e : ∀ e ∈ g3.edges,
      e.src.mechanism.id ∈ nodeIds bs.graph ∧ e.dst.mechanism.id ∈ nodeIds bs.graph := by
    intro e he
    rcases he3 e he with h1 | ⟨hs, hd⟩ | ⟨hs, hd⟩
    · exact d2 e h1
    · rw [hs, hd]
      exact ⟨d3, hanchorid⟩
    · rw [hs, hd]
      exact ⟨hanchorid, d3⟩
  have hvne : v.id ≠ (stepAnchor o bs).mechanism.id := by
    intro hc
    exact hv (hc ▸ hanchorid)
  have hfreshq : Graph.getStatesFromPath (Graph.mk g3.edges (g3.nodes ++ [⟨v⟩]))
      (stepInner o bs).1.currentState (stepAnchor o bs) ⟨v⟩ = [] := by
    apply getStatesFromPath_fresh
    · exact hvne
    · intro e he
      intro hc
      exact hv (hc ▸ (hg3e e he).2)
  have hnodes : (buildStep o bs v).graph.nodes = bs.graph.nodes ++ [(⟨v⟩ : Enclave)] := by
    rw [hg, addEdge_nodes]
    show g3.nodes ++ [(⟨v⟩ : Enclave)] = _
    rw [hg3n]
  refine ⟨hnodes, ?_, ?_, hce, ?_, ?_⟩
  · intro hvz n hn
    rw [hnodes] at hn
    rcases List.mem_append.mp hn with h1 | h2
    · exact hzero n h1
    · rw [List.mem_singleton] at h2
      rw [h2]
      exact hvz
  · intro e he
    rw [hg, addEdge_edges] at he
    rcases List.mem_append.mp he with h1 | h2
    · have h3 : e ∈ g3.edges := h1
      exact ⟨List.mem_append.mpr (Or.inl (hg3e e h3).1),
        List.mem_append.mpr (Or.inl (hg3e e h3).2)⟩
    · rcases List.mem_cons.mp h2 with h3 | h4
      · subst h3
        exact ⟨List.mem_append.mpr (Or.inl hanchorid), List.mem_append.mpr (Or.inr (by simp))⟩
      · rw [List.mem_singleton] at h4
        subst h4
        exact ⟨List.mem_append.mpr (Or.inr (by simp)), List.mem_append.mpr (Or.inl hanchorid)⟩
  · intro hsym
    rw [hg]
    exact symEdges_addEdge _ _ _ _ (hsym3 (d4 hsym))
  · intro ev hev
    rw [hevs] at hev
    rcases List.mem_append.mp hev with h1 | h2
    · rcases hbr with ⟨_, hev3⟩ | ⟨hq, _, hev3⟩
      · rw [hev3] at h1
        exact d5 ev h1
      · rw [hev3] at h1
        rcases List.mem_append.mp h1 with h3 | h4
        · exact d5 ev h3
        · rw [List.mem_singleton] at h4
          subst h4
          exact Or.inr hq
    · rw [List.mem_singleton] at h2
      subst h2
      exact Or.inr hfreshq

theorem nodeIds_buildStep (o : Nat → Nat) (bs : BuildState) (v : StateVar)
    (h : (buildStep o bs v).graph.nodes = bs.graph.nodes ++ [⟨v⟩]) :
    nodeIds (buildStep o bs v).graph = nodeIds bs.graph ++ [v.id] := by
  unfold nodeIds
  rw [h, List.map_append]
  rfl

/-- The builder invariant carried over the whole main loop. -/
theorem buildFrom_facts (o : Nat → Nat) :
    ∀ (l : List StateVar) (bs : BuildState),
      bs.graph.nodes ≠ [] →
      (∀ n ∈ bs.graph.nodes, n.mechanism.value = 0) →
      (∀ e ∈ bs.graph.edges,
        e.src.mechanism.id ∈ nodeIds bs.graph ∧ e.dst.mechanism.id ∈ nodeIds bs.graph) →
      bs.currentEnclave.mechanism.id ∈ nodeIds bs.graph →
      (∀ v ∈ l, v.id ∉ nodeIds bs.graph) →
      (idsOf l).Nodup →
      (∀ v ∈ l, v.value = 0) →
      (∀ n ∈ (buildFrom o bs l).graph.nodes, n.mechanism.value = 0) ∧
      (SymEdges bs.graph.edges → SymEdges (buildFrom o bs l).graph.edges) ∧
      (∀ ev ∈ (buildFrom o bs l).events, ev ∈ bs.events ∨ EventOK ev) := by
  intro l
  induction l with
  | nil =>
    intro bs _ hzero _ _ _ _ _
    exact ⟨hzero, fun h => h, fun ev hev => Or.inl hev⟩
  | cons v rest ih =>
    intro bs hne hzero hedges hcur hfresh hnodup hvals
    obtain ⟨f1, f2, f3, f4, f5, f6⟩ := buildStep_facts o bs v hne hzero hedges hcur
      (hfresh v (by simp))
    have hnid : nodeIds (buildStep o bs v).graph = nodeIds bs.graph ++ [v.id] :=
      nodeIds_buildStep o bs v f1
    have hne2 : (buildStep o bs v).graph.nodes ≠ [] := by
      rw [f1]
      simp
    have hzero2 : ∀ n ∈ (buildStep o bs v).graph.nodes, n.mechanism.value = 0 :=
      f2 (hvals v (by simp))
    have hedges2 : ∀ e ∈ (buildStep o bs v).graph.edges,
        e.src.mechanism.id ∈ nodeIds (buildStep o bs v).graph ∧
        e.dst.mechanism.id ∈ nodeIds (buildStep o bs v).graph := by
      intro e he
      rw [hnid]
      exact f3 e he
    have hcur2 : (buildStep o bs v).currentEnclave.mechanism.id ∈
        nodeIds (buildStep o bs v).graph := by
      rw [f4, hnid]
      exact List.mem_append.mpr (Or.inr (by simp))
    have hnodup2 : v.id ∉ idsOf rest ∧ (idsOf rest).Nodup :=
      List.nodup_cons.mp (by rw [← idsOf_cons]; exact hnodup)
    have hfresh2 : ∀ w ∈ rest, w.id ∉ nodeIds (buildStep o bs v).graph := by
      intro w hw
      rw [hnid]
      intro hc
      rcases List.mem_append.mp hc with h1 | h2
      · exact hfresh w (by simp [hw]) h1
      · rw [List.mem_singleton] at h2
        exact hnodup2.1 (h2 ▸ List.mem_map.mpr ⟨w, hw, rfl⟩)
    obtain ⟨g1, g2, g3⟩ := ih (buildStep o bs v) hne2 hzero2 hedges2 hcur2 hfresh2
      hnodup2.2 (fun w hw => hvals w (by simp [hw]))
    refine ⟨g1, ?_, ?_⟩
    · intro hsym
      exact g2 (f5 hsym)
    · intro ev hev
      rcases g3 ev hev with h1 | h2
      · rcases f6 ev h1 with h3 | h4
        · exact Or.inl h3
        · exact Or.inr h4
      · exact Or.inr h2

theorem symEdges_innerLoop (o : Nat → Nat) :
    ∀ (k : Nat) (bs : BuildState) (ml : List Enclave) (conditions : List StateVar),
      SymEdges bs.graph.edges → SymEdges (innerLoop o k bs ml conditions).1.graph.edges := by
  intro k
  induction k with
  | zero => intro bs _ _ h; exact h
  | succ m ih =>
    intro bs ml conditions h
    obtain ⟨_, _, _, hbranch⟩ := innerStep_chr o bs ml conditions
    show SymEdges (innerLoop o m (innerStep o bs ml conditions).1
      (innerStep o bs ml conditions).2.1 (innerStep o bs ml conditions).2.2).1.graph.edges
    apply ih
    rcases hbranch with ⟨hg, _⟩ | ⟨_, hg, _⟩
    · rw [hg]
      exact h
    · rw [hg]
      exact symEdges_addEdge _ _ _ _ h

theorem symEdges_buildStep (o : Nat → Nat) (bs : BuildState) (v : StateVar)
    (h : SymEdges bs.graph.edges) : SymEdges (buildStep o bs v).graph.edges := by
  obtain ⟨g3, evs3, _, _, _, hsym3, hg, _, _⟩ := buildStep_chr o bs v
  rw [hg]
  exact symEdges_addEdge _ _ _ _ (hsym3 (symEdges_innerLoop o _ _ _ _ h))

theorem symEdges_buildFrom (o : Nat → Nat) :
    ∀ (l : List StateVar) (bs : BuildState),
      SymEdges bs.graph.edges → SymEdges (buildFrom o bs l).graph.edges := by
  intro l
  induction l with
  | nil => intro bs h; exact h
  | cons v rest ih =>
    intro bs h
    exact ih (buildStep o bs v) (symEdges_buildStep o bs v h)

end BuilderLemmas

/-- **C7.** Constructing a `State` from a sequence of variable entries
resolves duplicate ids by keeping the first-seen position (the constructed
ids are the keep-first deduplication of the input ids) but the last-seen
value (the lookup of the construction is the last lookup of the input); the
induced merge — concatenate two var sequences, then construct — is
associative up to `State.equals`; and merging a constructed `State` with
itself yields an equal `State`. -/
theorem c7_state_merge_semantics :
    (∀ xs : List StateVar, idsOf (mkState xs).vars = keepFirst (idsOf xs) ∧
      ∀ i, lookupValue (mkState xs).vars i = lastLookup xs i) ∧
    (∀ a b c : State,
      State.equals (mergeStates (mergeStates a b) c) (mergeStates a (mergeStates b c)) = true) ∧
    (∀ xs : List StateVar,
      State.equals (mergeStates (mkState xs) (mkState xs)) (mkState xs) = true) :=
  ⟨fun xs => ⟨idsOf_dedupVars xs, fun i => lookupValue_dedupVars xs i⟩,
    merge_assoc_equals, merge_self_equals⟩

/-- **C4 (counterexample).** The claim says that under the default policy a
reversible mechanism's activation may redraw its current value.  In the
code the reversible branch of `Enclave.activated` skips over the current
value: for the reversible mechanism with id 65, cardinality 2 and current
value 0, no random draw can produce the value 0. -/
theorem c4_counterexample :
    ¬ ∃ (o : Nat → Nat) (ctr : Nat),
      (Enclave.activated ⟨⟨65, 2, 0, true⟩⟩ (mkState [⟨65, 2, 0, true⟩]) o ctr).1.value = 0 := by
  rintro ⟨o, ctr, h⟩
  rw [activated_rev_value _ _ 0 o ctr rfl (by rfl)] at h
  rw [if_pos (Nat.zero_le _)] at h
  cases h

/-- **C4 (amended).** For every reversible mechanism of cardinality
`N ≥ 2` and every current state carrying its id with an in-range value,
`Enclave.activated` returns a value in `[0, N)` that is **never** the
current value, and every other value in `[0, N)` is a possible result for
some random draw (the implemented policy excludes repeats, contrary to the
spec's default "may repeat"). -/
theorem c4_reversible_activation (e : Enclave) (s : State) (cur : Nat)
    (hrev : e.mechanism.reversible = true) (hN : 2 ≤ e.mechanism.states)
    (hcur : lookupValue s.vars e.mechanism.id = some cur)
    (hlt : cur < e.mechanism.states) :
    (∀ (o : Nat → Nat) (ctr : Nat),
      (e.activated s o ctr).1.value < e.mechanism.states ∧
      (e.activated s o ctr).1.value ≠ cur) ∧
    (∀ v, v < e.mechanism.states → v ≠ cur →
      ∃ (o : Nat → Nat) (ctr : Nat), (e.activated s o ctr).1.value = v) := by
  have hpos : e.mechanism.states - 1 ≠ 0 := by omega
  constructor
  · intro o ctr
    rw [activated_rev_value e s cur o ctr hrev hcur]
    have hm := rand_lt o (ctr + 1) (e.mechanism.states - 1) hpos
    by_cases hge : rand o (ctr + 1) (e.mechanism.states - 1) ≥ cur
    · rw [if_pos hge]
      omega
    · rw [if_neg hge]
      omega
  · intro v hv hne
    by_cases hlt2 : v < cur
    · refine ⟨fun _ => v, 0, ?_⟩
      rw [activated_rev_value e s cur _ 0 hrev hcur, rand_const v 1 _ (by omega),
        if_neg (by omega)]
    · refine ⟨fun _ => v - 1, 0, ?_⟩
      rw [activated_rev_value e s cur _ 0 hrev hcur, rand_const (v - 1) 1 _ (by omega),
        if_pos (by omega)]
      omega

/-- **C4 (witness).** The amended statement at the reversible mechanism
with id 65, cardinality 3 and current value 0. -/
theorem c4_reversible_activation_witness :
    (∀ (o : Nat → Nat) (ctr : Nat),
      ((⟨⟨65, 3, 0, true⟩⟩ : Enclave).activated (mkState [⟨65, 3, 0, true⟩]) o ctr).1.value < 3 ∧
      ((⟨⟨65, 3, 0, true⟩⟩ : Enclave).activated (mkState [⟨65, 3, 0, true⟩]) o ctr).1.value ≠ 0) ∧
    (∀ v, v < 3 → v ≠ 0 →
      ∃ (o : Nat → Nat) (ctr : Nat),
        ((⟨⟨65, 3, 0, true⟩⟩ : Enclave).activated (mkState [⟨65, 3, 0, true⟩]) o ctr).1.value = v) :=
  c4_reversible_activation ⟨⟨65, 3, 0, true⟩⟩ (mkState [⟨65, 3, 0, true⟩]) 0
    rfl (by decide) (by decide) (by decide)

/-- **C5.** An irreversible mechanism never regresses: every activation of
an irreversible mechanism at its baseline value yields a strictly greater
value (the builder's mechanisms always hold the baseline 0), and no
alternate `getAlternates` produces for an irreversible `StateVar` has a
smaller value than the input. -/
theorem c5_irreversible_monotonic :
    (∀ (e : Enclave) (s : State) (o : Nat → Nat) (ctr : Nat),
      e.mechanism.reversible = false → e.mechanism.value = 0 →
      e.mechanism.value < (e.activated s o ctr).1.value) ∧
    (∀ sv : StateVar, sv.reversible = false →
      ∀ alt ∈ getAlternates sv, sv.value ≤ alt.value) := by
  constructor
  · intro e s o ctr hrev hval
    rw [activated_irrev_value e s o ctr hrev, hval]
    omega
  · intro sv hrev alt halt
    unfold getAlternates at halt
    rw [if_neg (by simp [hrev])] at halt
    by_cases hz : sv.value = 0
    · rw [if_pos hz] at halt
      rw [hz]
      omega
    · rw [if_neg hz] at halt
      rw [List.mem_singleton] at halt
      rw [halt]

/-- **C5 (witness).** The statement at the irreversible binary mechanism
with id 66 at its baseline, and at its alternates. -/
theorem c5_irreversible_monotonic_witness :
    (⟨⟨66, 2, 0, false⟩⟩ : Enclave).mechanism.value <
      ((⟨⟨66, 2, 0, false⟩⟩ : Enclave).activated (mkState []) (fun _ => 0) 0).1.value ∧
    ∀ alt ∈ getAlternates ⟨66, 2, 0, false⟩, (⟨66, 2, 0, false⟩ : StateVar).value ≤ alt.value :=
  ⟨c5_irreversible_monotonic.1 ⟨⟨66, 2, 0, false⟩⟩ (mkState []) (fun _ => 0) 0 rfl rfl,
    c5_irreversible_monotonic.2 ⟨66, 2, 0, false⟩ rfl⟩

/-- **C3.** The claim says descriptors of the form `iN` are valid and that a
27-descriptor input is rejected.  The validation regex of `main` accepts
only `b` and `rN` tokens — it rejects the descriptor `i2` that the usage
message printed by the very same function documents — and it never counts
the descriptors, so 27 `r2` descriptors pass validation. -/
theorem c3_validation_mismatch :
    matchesDescriptor ['i', '2'] = false ∧
    validInput (List.replicate 27 ['r', '2']) = true := by
  constructor
  · rfl
  · decide

/-- **C8.** The reachability search always returns its start pair among the
accessible pairs (it seeds both the worklist and the visited list with it
and never removes entries), so a feasibility query from an enclave to
itself never comes back empty. -/
theorem c8_start_always_accessible (g : Graph) (e : Enclave) (s : State) :
    ({ enclave := e, state := s } : EnclaveAndState) ∈
      g.getAccessibleEnclaves { enclave := e, state := s } ∧
    g.getStatesFromPath s e e ≠ [] := by
  have hmem : ({ enclave := e, state := s } : EnclaveAndState) ∈
      g.getAccessibleEnclaves { enclave := e, state := s } :=
    searchLoop_visited_mono g _ _ _ _ (List.mem_singleton.mpr rfl)
  refine ⟨hmem, ?_⟩
  intro hc
  unfold Graph.getStatesFromPath at hc
  rw [List.map_eq_nil_iff, List.filter_eq_nil_iff] at hc
  exact hc { enclave := e, state := s } hmem (by simp [Enclave.equals])

/-- **C9.** Every `addEdge` call appends both directed records, so after
any sequence of edge operations on a fresh graph — and in particular in
every graph `buildDungeon` produces — the edge list contains `(a, b, l)`
iff it contains `(b, a, l)`: every committed doorway is bidirectional. -/
theorem c9_edges_bidirectional :
    (∀ (nodes : List Enclave) (ops : List (Enclave × Enclave × State)) (a b : Enclave)
      (l : State),
      (⟨a, b, l⟩ : Edge) ∈ (applyEdgeOps nodes ops).edges ↔
      (⟨b, a, l⟩ : Edge) ∈ (applyEdgeOps nodes ops).edges) ∧
    (∀ (s : State) (o : Nat → Nat) (a b : Enclave) (l : State),
      (⟨a, b, l⟩ : Edge) ∈ (buildDungeon s o).edges ↔
      (⟨b, a, l⟩ : Edge) ∈ (buildDungeon s o).edges) := by
  constructor
  · intro nodes ops a b l
    exact symEdges_foldl_addEdge ops { edges := [], nodes := nodes }
      (fun a b l => by constructor <;> intro h <;> cases h) a b l
  · intro s o a b l
    exact symEdges_buildFrom o s.vars.tail (initBuild s)
      (fun a b l => by constructor <;> intro h <;> cases h) a b l

/-- **C10.** The builder never writes to a committed enclave's mechanism:
activation returns a fresh copy, so after any prefix of the build steps
every committed enclave's mechanism still holds its initial value 0 and
`Enclave.mutable` returns `true` for it — including irreversible mechanisms
that have already been activated.  (The value-0 hypothesis reflects `main`,
which creates every variable with `value: 0`.) -/
theorem c10_mechanisms_stay_zero (vars : List StateVar) (o : Nat → Nat)
    (l₁ l₂ : List StateVar)
    (hz : ∀ v ∈ vars, v.value = 0)
    (hsplit : (mkState vars).vars.tail = l₁ ++ l₂) :
    ∀ e ∈ (buildFrom o (initBuild (mkState vars)) l₁).graph.nodes,
      e.mechanism.value = 0 ∧ e.mutable = true := by
  have hded : ∀ y ∈ (mkState vars).vars, y.value = 0 := dedupVars_values_zero vars hz
  have hnodup : (idsOf (mkState vars).vars).Nodup := nodup_idsOf_dedupVars vars
  intro e he
  have hzero : e.mechanism.value = 0 := by
    cases hv : (mkState vars).vars with
    | nil =>
      have hl1 : l₁ = [] := by
        have h2 := hsplit
        rw [hv] at h2
        exact (List.append_eq_nil.mp h2.symm).1
      subst hl1
      have he2 : e ∈ (initBuild (mkState vars)).graph.nodes := he
      have hh : (mkState vars).vars.headD default = default := by rw [hv]; rfl
      have he3 : e = ⟨default⟩ := by
        unfold initBuild at he2
        rw [hh] at he2
        exact List.mem_singleton.mp he2
      rw [he3]
      rfl
    | cons a t =>
      have hhead : (mkState vars).vars.headD default = a := by rw [hv]; rfl
      have htail : (mkState vars).vars.tail = t := by rw [hv]; rfl
      have hat : a.id ∉ idsOf t ∧ (idsOf t).Nodup := by
        rw [hv, idsOf_cons] at hnodup
        exact List.nodup_cons.mp hnodup
      have hl₁t : ∀ w ∈ l₁, w ∈ t := by
        intro w hw
        rw [← htail, hsplit]
        exact List.mem_append.mpr (Or.inl hw)
      have hvals1 : ∀ w ∈ l₁, w.value = 0 := by
        intro w hw
        apply hded w
        rw [hv]
        exact List.mem_cons_of_mem a (hl₁t w hw)
      have hinit : (initBuild (mkState vars)).graph.nodes = [⟨a⟩] := by
        unfold initBuild
        rw [hhead]
      have hce : (initBuild (mkState vars)).currentEnclave = ⟨a⟩ := by
        unfold initBuild
        rw [hhead]
      obtain ⟨g1, _, _⟩ := buildFrom_facts o l₁ (initBuild (mkState vars))
        (by rw [hinit]; simp)
        (by
          rw [hinit]
          intro n hn
          rw [List.mem_singleton] at hn
          rw [hn]
          exact hded a (by rw [hv]; simp))
        (by intro e2 he2; cases he2)
        (by
          rw [hce]
          unfold nodeIds
          rw [hinit]
          simp)
        (by
          intro w hw hc
          unfold nodeIds at hc
          rw [hinit] at hc
          rcases List.mem_map.mp hc with ⟨n, hn, hni⟩
          rw [List.mem_singleton] at hn
          subst hn
          exact hat.1 (hni ▸ List.mem_map.mpr ⟨w, hl₁t w hw, rfl⟩))
        (by
          have h2 : (idsOf (l₁ ++ l₂)).Nodup := by rw [← hsplit, htail]; exact hat.2
          rw [idsOf_append] at h2
          exact h2.of_append_left)
        hvals1
      exact g1 e he
  exact ⟨hzero, mutable_of_zero e hzero⟩

/-- **C2.** During any run of the builder, a structural edge between two
already-committed enclaves (an inner-loop edge or the anchor connection) is
committed only when the feasibility query `getStatesFromPath` between those
enclaves under the current state came back empty, and the edge gating the
freshly pushed enclave targets a node that no search can reach yet — every
recorded edge-commit event satisfies the empty-query property.  (The
value-0 hypothesis reflects `main`, which creates every variable with
`value: 0`.) -/
theorem c2_edges_only_when_unreachable (vars : List StateVar) (o : Nat → Nat)
    (hz : ∀ v ∈ vars, v.value = 0) :
    ∀ ev ∈ (buildFrom o (initBuild (mkState vars)) (mkState vars).vars.tail).events,
      Graph.getStatesFromPath ev.graphBefore ev.qstate ev.src ev.dst = [] := by
  have hded : ∀ y ∈ (mkState vars).vars, y.value = 0 := dedupVars_values_zero vars hz
  have hnodup : (idsOf (mkState vars).vars).Nodup := nodup_idsOf_dedupVars vars
  intro ev hev
  cases hv : (mkState vars).vars with
  | nil =>
    rw [hv] at hev
    exact absurd (show (ev ∈ ([] : List BuildEvent)) from hev) (List.not_mem_nil ev)
  | cons a t =>
    have hhead : (mkState vars).vars.headD default = a := by rw [hv]; rfl
    have htail : (mkState vars).vars.tail = t := by rw [hv]; rfl
    have hat : a.id ∉ idsOf t ∧ (idsOf t).Nodup := by
      rw [hv, idsOf_cons] at hnodup
      exact List.nodup_cons.mp hnodup
    have hinit : (initBuild (mkState vars)).graph.nodes = [⟨a⟩] := by
      unfold initBuild
      rw [hhead]
    have hce : (initBuild (mkState vars)).currentEnclave = ⟨a⟩ := by
      unfold initBuild
      rw [hhead]
    have hvals1 : ∀ w ∈ t, w.value = 0 := by
      intro w hw
      apply hded w
      rw [hv]
      exact List.mem_cons_of_mem a hw
    obtain ⟨_, _, g3⟩ := buildFrom_facts o t (initBuild (mkState vars))
      (by rw [hinit]; simp)
      (by
        rw [hinit]
        intro n hn
        rw [List.mem_singleton] at hn
        rw [hn]
        exact hded a (by rw [hv]; simp))
      (by intro e2 he2; cases he2)
      (by
        rw [hce]
        unfold nodeIds
        rw [hinit]
        simp)
      (by
        intro w hw hc
        unfold nodeIds at hc
        rw [hinit] at hc
        rcases List.mem_map.mp hc with ⟨n, hn, hni⟩
        rw [List.mem_singleton] at hn
        subst hn
        exact hat.1 (hni ▸ List.mem_map.mpr ⟨w, hw, rfl⟩))
      hat.2
      hvals1
    rw [htail] at hev
    rcases g3 ev hev with h1 | h2
    · exact absurd (show (ev ∈ ([] : List BuildEvent)) from h1) (List.not_mem_nil ev)
    · exact h2

/-- **C6.** For every finite graph and every starting (enclave, state)
pair built by the constructor, the reachability search terminates: with the
fuel `suffFuel` — two more than the size of the finite product space of
(enclave pool, value assignments over the id pool) — the worklist loop
provably drains; moreover the visited result stays inside that product
space, is pairwise distinct under the search's own equality test (the
visited-set check never re-enqueues a cycle), and its size is capped by the
product-space bound. -/
theorem c6_search_terminates (g : Graph) (start : EnclaveAndState)
    (h : (idsOf start.state.vars).Nodup) :
    loopEndsIn g (suffFuel g start) [start] [start] = true ∧
    (∀ p ∈ g.getAccessibleEnclaves start, goodEAS g start p) ∧
    (g.getAccessibleEnclaves start).Pairwise eqR ∧
    (g.getAccessibleEnclaves start).length ≤ searchBound g start := by
  have hstart : goodEAS g start start :=
    ⟨List.mem_cons.mpr (Or.inl rfl), h, start_vars_good g start⟩
  have hsingle : ∀ p ∈ [start], goodEAS g start p := by
    intro p hp
    rw [List.mem_singleton] at hp
    rw [hp]
    exact hstart
  have hpw : ([start] : List EnclaveAndState).Pairwise eqR := List.pairwise_singleton _ _
  obtain ⟨r1, r2⟩ := searchLoop_inv g start (suffFuel g start) [start] [start]
    hsingle hsingle hpw
  refine ⟨?_, r1, r2, visited_le_bound g start _ r1 r2⟩
  apply loopEndsIn_of_bound g start (suffFuel g start) [start] [start] hsingle hsingle hpw
  unfold suffFuel
  simp only [List.length_singleton]
  omega

/-- **C6 (witness).** Termination of the search on a concrete one-edge
graph from a concrete start pair. -/
theorem c6_search_terminates_witness :
    loopEndsIn
      (Graph.mk [⟨⟨⟨65, 2, 0, true⟩⟩, ⟨⟨66, 2, 0, false⟩⟩, State.mk [⟨65, 2, 1, true⟩]⟩]
        [⟨⟨65, 2, 0, true⟩⟩, ⟨⟨66, 2, 0, false⟩⟩])
      (suffFuel
        (Graph.mk [⟨⟨⟨65, 2, 0, true⟩⟩, ⟨⟨66, 2, 0, false⟩⟩, State.mk [⟨65, 2, 1, true⟩]⟩]
          [⟨⟨65, 2, 0, true⟩⟩, ⟨⟨66, 2, 0, false⟩⟩])
        ⟨⟨⟨65, 2, 0, true⟩⟩, mkState [⟨65, 2, 0, true⟩, ⟨66, 2, 0, false⟩]⟩)
      [⟨⟨⟨65, 2, 0, true⟩⟩, mkState [⟨65, 2, 0, true⟩, ⟨66, 2, 0, false⟩]⟩]
      [⟨⟨⟨65, 2, 0, true⟩⟩, mkState [⟨65, 2, 0, true⟩, ⟨66, 2, 0, false⟩]⟩] = true :=
  (c6_search_terminates
    (Graph.mk [⟨⟨⟨65, 2, 0, true⟩⟩, ⟨⟨66, 2, 0, false⟩⟩, State.mk [⟨65, 2, 1, true⟩]⟩]
      [⟨⟨65, 2, 0, true⟩⟩, ⟨⟨66, 2, 0, false⟩⟩])
    ⟨⟨⟨65, 2, 0, true⟩⟩, mkState [⟨65, 2, 0, true⟩, ⟨66, 2, 0, false⟩]⟩ (by decide)).1

/-- **C10 (witness).** The statement at the concrete two-variable all-zero
input with the all-zero oracle, after the single build step. -/
theorem c10_mechanisms_stay_zero_witness :
    (⟨⟨65, 2, 0, false⟩⟩ : Enclave).mechanism.value = 0 ∧
    (⟨⟨65, 2, 0, false⟩⟩ : Enclave).mutable = true :=
  c10_mechanisms_stay_zero [⟨65, 2, 0, false⟩, ⟨66, 2, 0, false⟩] (fun _ => 0)
    [⟨66, 2, 0, false⟩] [] (by decide) (by decide) ⟨⟨65, 2, 0, false⟩⟩ (by decide)

/-- **C2 (witness).** The empty-query property at the one edge-commit event
of the concrete two-variable all-zero run. -/
theorem c2_edges_only_when_unreachable_witness :
    Graph.getStatesFromPath
      (Graph.mk [] [⟨⟨65, 2, 0, false⟩⟩, ⟨⟨66, 2, 0, false⟩⟩])
      (State.mk [⟨65, 2, 1, false⟩, ⟨66, 2, 0, false⟩])
      ⟨⟨65, 2, 0, false⟩⟩ ⟨⟨66, 2, 0, false⟩⟩ = [] :=
  c2_edges_only_when_unreachable [⟨65, 2, 0, false⟩, ⟨66, 2, 0, false⟩] (fun _ => 0)
    (by decide)
    ⟨Graph.mk [] [⟨⟨65, 2, 0, false⟩⟩, ⟨⟨66, 2, 0, false⟩⟩],
      State.mk [⟨65, 2, 1, false⟩, ⟨66, 2, 0, false⟩],
      ⟨⟨65, 2, 0, false⟩⟩, ⟨⟨66, 2, 0, false⟩⟩⟩
    (by decide)

/-- **C1.** The solvability invariant fails on the code: with input
`r2:b:b` and the recorded random draws, `buildDungeon` commits the doorway
`B ↔ C` labelled `{A = 0}` even though every legal play reaching `B` must
hold `A = 1` (the only doorway into `B` is labelled `{A = 1}` and `A` can
only be toggled inside enclave `A`).  The legal-play closure over the
finished graph is exhaustive within the given fuel, no reachable
configuration visits every committed enclave, and even the program's own
reachability engine finds no path from the initial configuration to the
committed enclave `C`. -/
theorem c1_solvability_violated :
    playDone (buildDungeon (mkState cexVars) cexOracle) cexVars 1000
      [⟨65, [0, 0, 0], [65]⟩] [⟨65, [0, 0, 0], [65]⟩] = true ∧
    specSolvable (buildDungeon (mkState cexVars) cexOracle) cexVars 1000 = false ∧
    (buildDungeon (mkState cexVars) cexOracle).getStatesFromPath (mkState cexVars)
      ⟨⟨65, 2, 0, true⟩⟩ ⟨⟨67, 2, 0, false⟩⟩ = [] ∧
    (⟨⟨67, 2, 0, false⟩⟩ : Enclave) ∈ (buildDungeon (mkState cexVars) cexOracle).nodes := by
  refine ⟨by decide, by decide, by decide, by decide⟩

end Dungeon
